import Mathlib

set_option maxRecDepth 4000000
set_option maxHeartbeats 16000000

/-!
Verification of the `rusty-curves` arithmetic engine.

The development shallowly embeds the two core Rust modules:

* `src/felt/felt.rs` — the prime-field element type `Felt` with
  `new`, `add`, `sub`, `mul`, `div`, `neg`, `pow`, `inverse`;
* `src/ec/ec_point.rs` — the elliptic-curve point type `ECPoint` with the
  validating constructor, the group law, scalar multiplication, `order`,
  and the two discrete-logarithm solvers.

Modelling conventions:

* Rust `u64` values are modelled as `Nat` and the `i64` intermediates of
  the extended Euclidean algorithm as `Int`.  The specification (§4.1, §9)
  makes freedom from fixed-width overflow an explicit caller precondition
  ("signed integers wide enough to hold intermediate coefficients without
  overflow"), so the embedding works with unbounded integers; the `as u64`
  cast at the end of `inverse` is modelled by `Int.toNat`, which agrees
  with the cast exactly when the operand is non-negative — a fact proved
  below (`egcdAux` coefficient bound).
* A Rust `panic!` is a fatal abort, distinct from a recoverable
  `Result::Err`.  Panics are modelled by the error channel of
  `Except Panic _`, with one `Panic` constructor per `panic!` site;
  recoverable errors keep their own types `FeltError` and `ECError`,
  mirroring `felt_errors.rs` and `ec_errors.rs`.
* Unbounded `while` loops (`order`, `solve_dlp_brute_force`) are embedded
  step-indexed: an explicit fuel argument, with `none` meaning the fuel
  ran out before the loop finished.
-/

/-- The recoverable error type of the field module (`felt_errors.rs`):
`NotInvertible(value, modulus)` is its only variant. -/
inductive FeltError where
  | NotInvertible (value modulus : Nat)
deriving DecidableEq, Repr

/-- The recoverable error type of the curve module (`ec_errors.rs`):
`PointNotOnCurve(x, y, a, b)` is its only variant. -/
inductive ECError where
  | PointNotOnCurve (x y a b : Nat)
deriving DecidableEq, Repr

/-- The fatal abort channel: one constructor per `panic!` site of the
source.  `feltAddMismatch` … `feltDivMismatch` are the four
"Cannot … two Felt values with different moduli" panics, `divisionByZero`
is `div`'s "Cannot divide by zero", `divNotInvertible` is `div`'s
`panic!("{}", e)` on a failed inverse, `curveMismatch` is the
"Points …, … are not on the same curve" panic of point addition and
`unwrapPointNotOnCurve` is the `.unwrap()` of the validating constructor
inside `add` and `neg`. -/
inductive Panic where
  | feltAddMismatch
  | feltSubMismatch
  | feltMulMismatch
  | feltDivMismatch
  | divisionByZero
  | divNotInvertible (value modulus : Nat)
  | curveMismatch
  | unwrapPointNotOnCurve (x y a b : Nat)
deriving DecidableEq, Repr

/-- `Felt` (`felt.rs`): a residue `value` modulo `modulus`.  Derived
(structural) equality, as in the Rust `#[derive(PartialEq, Eq)]`. -/
structure Felt where
  value : Nat
  modulus : Nat
deriving DecidableEq, Repr

namespace Felt

/-- `Felt::new`: reduces `value` modulo `modulus`. -/
def new (value modulus : Nat) : Felt :=
  ⟨value % modulus, modulus⟩

/-- The happy-path (equal-moduli) branch of `Add for Felt`. -/
def addU (a b : Felt) : Felt :=
  Felt.new (a.value + b.value) a.modulus

/-- `Add for Felt`: panics when the moduli differ, otherwise reduces the
sum. -/
def add (a b : Felt) : Except Panic Felt :=
  if a.modulus ≠ b.modulus then .error .feltAddMismatch
  else .ok (addU a b)

/-- The happy-path (equal-moduli) branch of `Sub for Felt`: borrows the
modulus first when the subtrahend is larger. -/
def subU (a b : Felt) : Felt :=
  if a.value < b.value then Felt.new (a.value + a.modulus - b.value) a.modulus
  else Felt.new (a.value - b.value) a.modulus

/-- `Sub for Felt`: panics when the moduli differ. -/
def sub (a b : Felt) : Except Panic Felt :=
  if a.modulus ≠ b.modulus then .error .feltSubMismatch
  else .ok (subU a b)

/-- The happy-path (equal-moduli) branch of `Mul for Felt`. -/
def mulU (a b : Felt) : Felt :=
  Felt.new (a.value * b.value) a.modulus

/-- `Mul for Felt`: panics when the moduli differ. -/
def mul (a b : Felt) : Except Panic Felt :=
  if a.modulus ≠ b.modulus then .error .feltMulMismatch
  else .ok (mulU a b)

/-- `Neg for Felt`: `modulus - value`, reduced. -/
def neg (a : Felt) : Felt :=
  Felt.new (a.modulus - a.value) a.modulus

/-- The loop of `Felt::inverse` (extended Euclidean algorithm).  The Rust
loop keeps all four variables in `i64`; `r`/`new_r` start from the
non-negative `modulus`/`value` and remain non-negative (each new remainder
is a Euclidean remainder of non-negative numbers), so they are carried as
`Nat`, on which Rust's truncating `i64` division and remainder coincide
with `Nat` division and remainder.  The first argument is fuel: the
remainder strictly decreases, so any fuel exceeding the initial `new_r`
makes the result fuel-independent (`egcdAux_congr`). -/
def egcdAux : Nat → Int → Int → Nat → Nat → Int × Nat
  | 0, t, _, r, _ => (t, r)
  | fuel + 1, t, newT, r, newR =>
    if newR = 0 then (t, r)
    else egcdAux fuel newT (t - (↑(r / newR)) * newT) newR (r % newR)

/-- `Felt::inverse`: runs the extended Euclidean loop from
`(t, new_t, r, new_r) = (0, 1, modulus, value)`; fails with
`NotInvertible` when the final remainder exceeds 1, otherwise normalizes
the Bézout coefficient into `[0, modulus)` (adding the modulus once if
negative — the `as u64` cast is exact because the coefficient is bounded
by the modulus, see `inverse_spec`). -/
def inverse (a : Felt) : Except FeltError Felt :=
  let p := egcdAux (a.value + 1) 0 1 a.modulus a.value
  if 1 < p.2 then .error (.NotInvertible a.value a.modulus)
  else
    let t := if p.1 < 0 then p.1 + (a.modulus : Int) else p.1
    .ok (Felt.new t.toNat a.modulus)

/-- The loop of `Felt::pow` (binary square-and-multiply).  All
multiplications are between elements of modulus `self.modulus`, so the
modulus-mismatch panic of `mul` is unreachable and the loop is embedded
with the pure `mulU`.  First argument is fuel; the exponent strictly
decreases, so any fuel exceeding it is enough (`powAux_congr`). -/
def powAux : Nat → Felt → Felt → Nat → Felt
  | 0, result, _, _ => result
  | fuel + 1, result, base, exp =>
    if exp = 0 then result
    else powAux fuel (if exp % 2 = 1 then mulU result base else result) (mulU base base) (exp / 2)

/-- `Felt::pow`. -/
def pow (a : Felt) (exponent : Nat) : Felt :=
  powAux (exponent + 1) (Felt.new 1 a.modulus) a exponent

/-- `Div for Felt`: panics on modulus mismatch, panics with a dedicated
message on a zero divisor (before any inverse is computed), panics with
the formatted `FeltError` when the inverse fails, and otherwise multiplies
by the inverse. -/
def div (a b : Felt) : Except Panic Felt :=
  if a.modulus ≠ b.modulus then .error .feltDivMismatch
  else if b.value = 0 then .error .divisionByZero
  else
    match b.inverse with
    | .ok i => mul a i
    | .error (.NotInvertible v m) => .error (.divNotInvertible v m)

end Felt

/-- `ECPoint` (`ec_point.rs`): affine coordinates, the curve coefficients,
and the `infinity` flag.  Derived structural equality, as in Rust. -/
structure ECPoint where
  x : Felt
  y : Felt
  a : Felt
  b : Felt
  infinity : Bool
deriving DecidableEq, Repr

namespace ECPoint

/-- `ECPoint::verify_point`: compares `y²` with `x³ + a·x + b`.  The
right-hand side is computed with the panicking field operators, so a
modulus mismatch among the four coordinates surfaces as a `Panic`. -/
def verifyE (p : ECPoint) : Except Panic (Except ECError Unit) := do
  let lhs := p.y.pow 2
  let t1 ← Felt.mul p.a p.x
  let t2 ← Felt.add (p.x.pow 3) t1
  let rhs ← Felt.add t2 p.b
  if lhs = rhs then
    pure (Except.ok ())
  else
    pure (Except.error (ECError.PointNotOnCurve p.x.value p.y.value p.a.value p.b.value))

/-- `ECPoint::new`: builds the affine point and validates curve
membership; the inner `Except` is the Rust `Result<Self, ECError>`, the
outer one the panic channel of `verify_point`'s field arithmetic. -/
def newE (x y a b : Felt) : Except Panic (Except ECError ECPoint) := do
  let point : ECPoint := ⟨x, y, a, b, false⟩
  match ← verifyE point with
  | .ok _ => pure (Except.ok point)
  | .error e => pure (Except.error e)

/-- `ECPoint::infinity`: the identity for curve `(a, b)`, with a zero
sentinel for the unused coordinates. -/
def mkInfinity (a b : Felt) : ECPoint :=
  ⟨Felt.new 0 a.modulus, Felt.new 0 a.modulus, a, b, true⟩

/-- `Neg for ECPoint`: infinity maps to itself; otherwise negate `y` and
rebuild through the validating constructor, whose `Err` is `unwrap`ped
into a panic. -/
def negE (p : ECPoint) : Except Panic ECPoint := do
  if p.infinity then
    pure p
  else
    match ← newE p.x p.y.neg p.a p.b with
    | .ok q => pure q
    | .error (.PointNotOnCurve x y a b) => Except.error (.unwrapPointNotOnCurve x y a b)

/-- The slope `s` of `Add for ECPoint`: the tangent
`(3·x² + a) / (2·y)` when the two points are equal, the chord
`(y₂ − y₁) / (x₂ − x₁)` otherwise (a factored-out `let s = if … else …`
of the source). -/
def slopeE (p q : ECPoint) : Except Panic Felt :=
  if p = q then do
    let f3 := Felt.new 3 p.a.modulus
    let f2 := Felt.new 2 p.a.modulus
    let t1 ← Felt.mul f3 (p.x.pow 2)
    let num ← Felt.add t1 p.a
    let den ← Felt.mul f2 p.y
    Felt.div num den
  else do
    let num ← Felt.sub q.y p.y
    let den ← Felt.sub q.x p.x
    Felt.div num den

/-- `Add for ECPoint`: panics on a curve mismatch, returns the other
operand when one is infinity, returns infinity on `P + (−P)`, and
otherwise applies the chord/tangent formulas and `unwrap`s the validating
constructor. -/
def addE (p q : ECPoint) : Except Panic ECPoint := do
  if p.a ≠ q.a ∨ p.b ≠ q.b then
    Except.error .curveMismatch
  else if p.infinity then
    pure q
  else if q.infinity then
    pure p
  else
    let nq ← negE q
    if p = nq then
      pure (mkInfinity p.a p.b)
    else
      let s ← slopeE p q
      let u1 ← Felt.sub (s.pow 2) p.x
      let xr ← Felt.sub u1 q.x
      let u2 ← Felt.sub p.x xr
      let u3 ← Felt.mul s u2
      let yr ← Felt.sub u3 p.y
      match ← newE xr yr p.a p.b with
      | .ok r => pure r
      | .error (.PointNotOnCurve x y a b) => Except.error (.unwrapPointNotOnCurve x y a b)

/-- `k`-fold repeated addition of `p` into the identity:
`iterAdd 0 p = infinity(p.a, p.b)` and
`iterAdd (k+1) p = iterAdd k p + p`.  This is the accumulation performed
by `order`, `solve_dlp_brute_force` and the spec's cross-check loop
(`p_add += p`), and the mathematical meaning of the scalar multiple
`k·P`. -/
def iterAdd (k : Nat) (p : ECPoint) : Except Panic ECPoint :=
  match k with
  | 0 => .ok (mkInfinity p.a p.b)
  | k + 1 => do
    let acc ← iterAdd k p
    addE acc p

/-- `k`-fold repeated addition of a step point `st` into
`infinity(a, b)` — the accumulation of `jmp += mp` in the giant-step loop
of `solve_dlp_baby_step_giant_step`. -/
def iterFrom (a b : Felt) (st : ECPoint) (k : Nat) : Except Panic ECPoint :=
  match k with
  | 0 => .ok (mkInfinity a b)
  | k + 1 => do
    let acc ← iterFrom a b st k
    addE acc st

/-- The loop of `Mul<u64> for ECPoint` (double-and-add, least-significant
bit first).  Faithful to the source, the body updates `current` even on
the final iteration, after the last bit has been consumed.  First
argument is fuel; the scalar strictly decreases, so any fuel exceeding it
is enough. -/
def mulAux : Nat → ECPoint → ECPoint → Nat → Except Panic ECPoint
  | 0, result, _, _ => .ok result
  | fuel + 1, result, current, i =>
    if i = 0 then .ok result
    else do
      let result ← if i % 2 = 1 then addE result current else pure result
      let current ← addE current current
      mulAux fuel result current (i / 2)

/-- `Mul<u64> for ECPoint`: `P * k` by double-and-add. -/
def mulE (p : ECPoint) (k : Nat) : Except Panic ECPoint :=
  mulAux (k + 1) (mkInfinity p.a p.b) p k

/-- `Mul<ECPoint> for u64`: `k * P` just delegates to `P * k`. -/
def mulNatE (k : Nat) (p : ECPoint) : Except Panic ECPoint :=
  mulE p k

/-- The loop of `ECPoint::order`: counts accumulations of `self` until
the running point reaches infinity.  Step-indexed by fuel (`none` =
undecided within the given fuel), with errors of the embedded addition
propagated on the panic channel. -/
def orderAux (fuel : Nat) (p gi : ECPoint) (count : Nat) :
    Option (Except Panic Nat) :=
  match fuel with
  | 0 => none
  | fuel + 1 =>
    if gi = mkInfinity p.a p.b then some (.ok count)
    else
      match addE gi p with
      | .error e => some (.error e)
      | .ok gi' => orderAux fuel p gi' (count + 1)

/-- `ECPoint::order`, step-indexed. -/
def orderE (fuel : Nat) (p : ECPoint) : Option (Except Panic Nat) :=
  orderAux fuel p p 1

/-- The loop of `ECPoint::solve_dlp_brute_force`: starting from
`(xp, x) = (self, 1)`, while `xp` is not infinity, return `x` on
`xp == target`, else step.  Step-indexed by fuel. -/
def bruteAux (fuel : Nat) (p target xp : ECPoint) (x : Nat) :
    Option (Except Panic (Option Nat)) :=
  match fuel with
  | 0 => none
  | fuel + 1 =>
    if xp = mkInfinity p.a p.b then some (.ok none)
    else if xp = target then some (.ok (some x))
    else
      match addE xp p with
      | .error e => some (.error e)
      | .ok xp' => bruteAux fuel p target xp' (x + 1)

/-- `ECPoint::solve_dlp_brute_force`, step-indexed. -/
def solveDlpBruteForce (fuel : Nat) (p target : ECPoint) :
    Option (Except Panic (Option Nat)) :=
  bruteAux fuel p target p 1

end ECPoint

namespace ECPoint

/-- The exact value of `(n as f64).sqrt().ceil() as u64` computed by
`solve_dlp_baby_step_giant_step`, i.e. the least `m` with `n ≤ m·m`.
`f64` square roots are correctly rounded, so for every `n` below `2^52`
(far beyond the pedagogic curve sizes the spec targets) the float
computation returns this integer exactly; the embedding uses the integer
value directly.  Implemented as a fuel-bounded linear search so that it
reduces in the kernel. -/
def ceilSqrtAux : Nat → Nat → Nat → Nat
  | 0, m, _ => m
  | fuel + 1, m, n => if n ≤ m * m then m else ceilSqrtAux fuel (m + 1) n

/-- Least `m` with `n ≤ m·m`. -/
def ceilSqrt (n : Nat) : Nat :=
  ceilSqrtAux (n + 1) 0 n

/-- The baby-step loop of `solve_dlp_baby_step_giant_step`: for
`i = 1 .. m−1`, insert `(pi, i)` and advance `pi += p`.  The Rust
`HashMap::insert` overwrites on duplicate keys; inserting at the head of
an association list and looking up the first match has the same lookup
semantics.  `i` counts up, `left` is the number of remaining iterations
(structural recursion). -/
def babyAux (p : ECPoint) : Nat → ECPoint → Nat → List (ECPoint × Nat) →
    Except Panic (List (ECPoint × Nat))
  | 0, _, _, table => .ok table
  | left + 1, pi, i, table => do
    let pi' ← addE pi p
    babyAux p left pi' (i + 1) ((pi, i) :: table)

/-- First-match association-list lookup (the `HashMap::get` of the
solver). -/
def lookupTable (q : ECPoint) : List (ECPoint × Nat) → Option Nat
  | [] => none
  | (pt, i) :: rest => if pt = q then some i else lookupTable q rest

/-- The giant-step loop: for `j = 0 .. m−1`, compute
`q = target + (−jmp)`, return `m·j + i` on a table hit, else advance
`jmp += mp`.  `left` is the number of remaining iterations. -/
def giantAux (p target mp : ECPoint) (m : Nat) (table : List (ECPoint × Nat)) :
    Nat → ECPoint → Nat → Except Panic (Option Nat)
  | 0, _, _ => .ok none
  | left + 1, jmp, j => do
    let njmp ← negE jmp
    let q ← addE target njmp
    match lookupTable q table with
    | some i => pure (some (m * j + i))
    | none => do
      let jmp' ← addE jmp mp
      giantAux p target mp m table left jmp' (j + 1)

/-- The body of `solve_dlp_baby_step_giant_step` once the order is known:
`m = ceil(sqrt(order))`, the baby-step table for `i = 1 .. m−1`,
`mp = m * p` by double-and-add, then the giant-step loop. -/
def bsgsCore (ord : Nat) (p target : ECPoint) : Except Panic (Option Nat) := do
  let m := ceilSqrt ord
  let table ← babyAux p (m - 1) p 1 []
  let mp ← mulE p m
  giantAux p target mp m table m (mkInfinity p.a p.b) 0

/-- `ECPoint::solve_dlp_baby_step_giant_step`, step-indexed (the fuel
feeds the embedded `order` loop; everything after it is bounded by `m`). -/
def solveDlpBsgs (fuel : Nat) (p target : ECPoint) :
    Option (Except Panic (Option Nat)) :=
  match orderE fuel p with
  | none => none
  | some (.error e) => some (.error e)
  | some (.ok ord) => some (bsgsCore ord p target)

end ECPoint

deriving instance DecidableEq for Except

namespace Felt

/-- A field element whose value is the least non-negative residue — the
data-model invariant of the spec (§3). -/
def Reduced (a : Felt) : Prop := a.value < a.modulus

instance (a : Felt) : Decidable a.Reduced := by
  unfold Reduced
  infer_instance

/-- Interpretation of a field element in the ring `ZMod m` (used with
`m = modulus`); the algebraic mirror of the residue `value`. -/
def z (m : Nat) (f : Felt) : ZMod m := (f.value : ZMod m)

end Felt

namespace ECPoint

/-- The curve equation `y² = x³ + a·x + b` read in the ring `ZMod m`. -/
def OnCurveZ (m : Nat) (p : ECPoint) : Prop :=
  (Felt.z m p.y) ^ 2 = (Felt.z m p.x) ^ 3 + Felt.z m p.a * Felt.z m p.x + Felt.z m p.b

/-- A well-formed point, as produced by the public constructors: the four
field elements share one modulus greater than 1 and are reduced; an
infinity point carries the zero sentinel; an affine point satisfies the
curve equation. -/
def Valid (p : ECPoint) : Prop :=
  1 < p.a.modulus ∧
  p.x.modulus = p.a.modulus ∧ p.y.modulus = p.a.modulus ∧ p.b.modulus = p.a.modulus ∧
  p.x.Reduced ∧ p.y.Reduced ∧ p.a.Reduced ∧ p.b.Reduced ∧
  (p.infinity = true → p.x = Felt.new 0 p.a.modulus ∧ p.y = Felt.new 0 p.a.modulus) ∧
  (p.infinity = false → OnCurveZ p.a.modulus p)

instance (m : Nat) (p : ECPoint) : Decidable (OnCurveZ m p) := by
  unfold OnCurveZ
  infer_instance

instance (p : ECPoint) : Decidable p.Valid := by
  unfold Valid
  infer_instance

/-- The spec's cross-check loop (§8): starting from the identity, do
`acc += p` and compare with `p * k` for `k = 1, 2, …` — `left` rounds in
all.  Returns `false` as soon as an addition or multiplication panics or
the two disagree. -/
def crossCheck (p : ECPoint) : Nat → ECPoint → Nat → Bool
  | 0, _, _ => true
  | left + 1, acc, k =>
    match addE acc p with
    | .error _ => false
    | .ok acc2 =>
      match mulE p k with
      | .error _ => false
      | .ok pm => acc2 = pm && crossCheck p left acc2 (k + 1)

end ECPoint

/-- The generator `P = (1006, 416)` of the spec's concrete DLP instance on
`y² = x³ + 905·x + 100 (mod 1021)`. -/
def dlpP : ECPoint :=
  ⟨Felt.new 1006 1021, Felt.new 416 1021, Felt.new 905 1021, Felt.new 100 1021, false⟩

/-- The target `T = (612, 827)` of the spec's concrete DLP instance. -/
def dlpT : ECPoint :=
  ⟨Felt.new 612 1021, Felt.new 827 1021, Felt.new 905 1021, Felt.new 100 1021, false⟩

/-- The point `(18, 26)` on `y² = x³ + 3·x + 7 (mod 37)` used by the
spec's multiplication-vs-addition cross-check. -/
def checkP : ECPoint :=
  ⟨Felt.new 18 37, Felt.new 26 37, Felt.new 3 37, Felt.new 7 37, false⟩

/-- The point `(1, 3)` on `y² = x³ + x + 7` over the composite modulus 15:
a valid point (it satisfies the curve equation) whose doubling panics,
because the tangent denominator `2·y = 6` shares the factor 3 with the
modulus. -/
def comp15P : ECPoint :=
  ⟨Felt.new 1 15, Felt.new 3 15, Felt.new 1 15, Felt.new 7 15, false⟩

/-- The point `(0, 1)` on `y² = x³ + 1 (mod 5)`; it has order 3. -/
def ord3P : ECPoint :=
  ⟨Felt.new 0 5, Felt.new 1 5, Felt.new 0 5, Felt.new 1 5, false⟩

/-- The point `(6, 5)` on `y² = x³ + 6·x + 4 (mod 7)`; it has order 10. -/
def ord10P : ECPoint :=
  ⟨Felt.new 6 7, Felt.new 5 7, Felt.new 6 7, Felt.new 4 7, false⟩

/-- The point `(0, 2) = 4·(6, 5)` on `y² = x³ + 6·x + 4 (mod 7)`. -/
def ord10T : ECPoint :=
  ⟨Felt.new 0 7, Felt.new 2 7, Felt.new 6 7, Felt.new 4 7, false⟩

namespace Felt

@[simp] theorem new_value (v m : Nat) : (Felt.new v m).value = v % m := rfl

@[simp] theorem new_modulus (v m : Nat) : (Felt.new v m).modulus = m := rfl

theorem new_reduced (v : Nat) {m : Nat} (hm : 0 < m) : (Felt.new v m).Reduced :=
  Nat.mod_lt _ hm

@[simp] theorem addU_modulus (a b : Felt) : (addU a b).modulus = a.modulus := rfl

theorem subU_modulus (a b : Felt) : (subU a b).modulus = a.modulus := by
  unfold subU; split <;> rfl

@[simp] theorem mulU_modulus (a b : Felt) : (mulU a b).modulus = a.modulus := rfl

@[simp] theorem neg_modulus (a : Felt) : a.neg.modulus = a.modulus := rfl

theorem powAux_modulus (fuel : Nat) (r b : Felt) (e : Nat) :
    (powAux fuel r b e).modulus = r.modulus := by
  induction fuel generalizing r b e with
  | zero => rfl
  | succ fuel ih =>
    unfold powAux
    split
    · rfl
    · rw [ih]
      split <;> rfl

@[simp] theorem pow_modulus (a : Felt) (e : Nat) : (a.pow e).modulus = a.modulus := by
  unfold pow; rw [powAux_modulus]; rfl

theorem powAux_reduced (fuel : Nat) (r b : Felt) (e : Nat) (hm : 0 < r.modulus)
    (hr : r.Reduced) : (powAux fuel r b e).Reduced := by
  induction fuel generalizing r b e with
  | zero => exact hr
  | succ fuel ih =>
    unfold powAux
    split
    · exact hr
    · refine ih _ _ _ ?_ ?_
      · split <;> simpa using hm
      · split
        · exact new_reduced _ hm
        · exact hr

theorem pow_reduced (a : Felt) (e : Nat) (hm : 0 < a.modulus) : (a.pow e).Reduced :=
  powAux_reduced _ _ _ _ (by simpa using hm) (new_reduced _ hm)

theorem add_ok {a b : Felt} (h : a.modulus = b.modulus) : add a b = .ok (addU a b) := by
  unfold add; simp [h]

theorem sub_ok {a b : Felt} (h : a.modulus = b.modulus) : sub a b = .ok (subU a b) := by
  unfold sub; simp [h]

theorem mul_ok {a b : Felt} (h : a.modulus = b.modulus) : mul a b = .ok (mulU a b) := by
  unfold mul; simp [h]

theorem add_ok_inv {a b c : Felt} (h : add a b = .ok c) :
    a.modulus = b.modulus ∧ c = addU a b := by
  by_cases hm : a.modulus = b.modulus
  · rw [add_ok hm] at h
    injection h with h2
    exact ⟨hm, h2.symm⟩
  · unfold add at h
    simp [hm] at h

theorem sub_ok_inv {a b c : Felt} (h : sub a b = .ok c) :
    a.modulus = b.modulus ∧ c = subU a b := by
  by_cases hm : a.modulus = b.modulus
  · rw [sub_ok hm] at h
    injection h with h2
    exact ⟨hm, h2.symm⟩
  · unfold sub at h
    simp [hm] at h

theorem mul_ok_inv {a b c : Felt} (h : mul a b = .ok c) :
    a.modulus = b.modulus ∧ c = mulU a b := by
  by_cases hm : a.modulus = b.modulus
  · rw [mul_ok hm] at h
    injection h with h2
    exact ⟨hm, h2.symm⟩
  · unfold mul at h
    simp [hm] at h

end Felt

/-- When two integers have opposite (or zero) signs, the absolute value of
their difference is the sum of their absolute values. -/
theorem natAbs_sub_eq_add_of_mul_nonpos {a b : Int} (h : a * b ≤ 0) :
    (a - b).natAbs = a.natAbs + b.natAbs := by
  rcases le_or_lt 0 a with ha | ha <;> rcases le_or_lt 0 b with hb | hb
  · have h0 : a * b = 0 := le_antisymm h (mul_nonneg ha hb)
    rcases mul_eq_zero.mp h0 with h1 | h1 <;> subst h1 <;> omega
  · omega
  · omega
  · exact absurd h (not_le.mpr (mul_pos_of_neg_of_neg ha hb))

namespace Felt

/-- Combined loop invariant of the extended Euclidean loop: the final
remainder is the gcd of the inputs, the final Bézout coefficient `t`
satisfies `t·V ≡ r (mod M)`, and `|t| ≤ M` (so the `as u64` cast after the
single conditional `+ M` in `inverse` cannot wrap). -/
theorem egcdAux_spec (M V : Nat) :
    ∀ (fuel : Nat) (t nt : Int) (r nr : Nat), nr < fuel → 1 ≤ r →
    (t * (V : Int) ≡ (r : Int) [ZMOD (M : Int)]) →
    (nt * (V : Int) ≡ (nr : Int) [ZMOD (M : Int)]) →
    t * nt ≤ 0 →
    (t * (nr : Int) - nt * (r : Int)).natAbs = M →
    t.natAbs ≤ M →
    (egcdAux fuel t nt r nr).2 = Nat.gcd nr r ∧
    ((egcdAux fuel t nt r nr).1 * (V : Int) ≡
      ((egcdAux fuel t nt r nr).2 : Int) [ZMOD (M : Int)]) ∧
    (egcdAux fuel t nt r nr).1.natAbs ≤ M := by
  intro fuel
  induction fuel with
  | zero => intro t nt r nr hfuel; omega
  | succ fuel ih =>
    intro t nt r nr hfuel hr hc1 hc2 hsign hdet htb
    by_cases hnr : nr = 0
    · subst hnr
      simpa [egcdAux] using ⟨hc1, htb⟩
    · have hnr1 : 1 ≤ nr := Nat.pos_of_ne_zero hnr
      have hstep : egcdAux (fuel + 1) t nt r nr =
          egcdAux fuel nt (t - ((r / nr : Nat) : Int) * nt) nr (r % nr) := by
        simp [egcdAux, hnr]
      have hq : ((r % nr : Nat) : Int) = (r : Int) - ((r / nr : Nat) : Int) * (nr : Int) := by
        push_cast
        rw [Int.emod_def]
        ring
      rw [hstep, Nat.gcd_rec nr r]
      refine ih nt (t - ((r / nr : Nat) : Int) * nt) nr (r % nr) ?_ hnr1 hc2 ?_ ?_ ?_ ?_
      · have := Nat.mod_lt r hnr1
        omega
      · have h3 := hc1.sub (hc2.mul_left ((r / nr : Nat) : Int))
        have h4 : (t - ((r / nr : Nat) : Int) * nt) * (V : Int) =
            t * (V : Int) - ((r / nr : Nat) : Int) * (nt * (V : Int)) := by ring
        rw [hq, h4]
        exact h3
      · have h5 : nt * (t - ((r / nr : Nat) : Int) * nt) =
            t * nt - ((r / nr : Nat) : Int) * (nt * nt) := by ring
        have h6 : (0 : Int) ≤ ((r / nr : Nat) : Int) * (nt * nt) :=
          mul_nonneg (by positivity) (mul_self_nonneg nt)
        rw [h5]
        linarith
      · have h7 : nt * ((r : Int) - ((r / nr : Nat) : Int) * (nr : Int)) -
            (t - ((r / nr : Nat) : Int) * nt) * (nr : Int) =
            -(t * (nr : Int) - nt * (r : Int)) := by ring
        rw [hq, h7, Int.natAbs_neg]
        exact hdet
      · have h8 : (t * (nr : Int)) * (nt * (r : Int)) =
            (t * nt) * ((nr : Int) * (r : Int)) := by ring
        have h9 : (t * (nr : Int)) * (nt * (r : Int)) ≤ 0 := by
          rw [h8]
          exact mul_nonpos_iff.mpr (Or.inr ⟨hsign, by positivity⟩)
        have h10 := natAbs_sub_eq_add_of_mul_nonpos h9
        have h11 : (nt * (r : Int)).natAbs = nt.natAbs * r := by
          rw [Int.natAbs_mul, Int.natAbs_ofNat]
        have h12 : nt.natAbs * r ≤ M := by
          rw [← h11]
          omega
        calc nt.natAbs = nt.natAbs * 1 := by omega
        _ ≤ nt.natAbs * r := Nat.mul_le_mul_left _ hr
        _ ≤ M := h12

end Felt

namespace Felt

/-- Full behaviour of `Felt::inverse` for a field element with modulus at
least 2: failure exactly when `gcd(value, modulus) ≠ 1`, and otherwise a
reduced result that is a modular inverse of the value. -/
theorem inverse_spec (a : Felt) (hM : 2 ≤ a.modulus) :
    (Nat.gcd a.value a.modulus ≠ 1 →
      a.inverse = .error (.NotInvertible a.value a.modulus)) ∧
    (Nat.gcd a.value a.modulus = 1 →
      ∃ c : Felt, a.inverse = .ok c ∧ c.modulus = a.modulus ∧ c.value < a.modulus ∧
        (a.value * c.value) % a.modulus = 1) := by
  have hspec := egcdAux_spec a.modulus a.value (a.value + 1) 0 1 a.modulus a.value
    (by omega) (by omega)
    (by simp [Int.ModEq, Int.emod_self])
    (by simp [Int.ModEq])
    (by simp)
    (by simp)
    (by simp)
  obtain ⟨hgcd, hcong, hbound⟩ := hspec
  have hpos : 0 < Nat.gcd a.value a.modulus :=
    Nat.gcd_pos_of_pos_right _ (by omega)
  constructor
  · intro hne
    have h1 : 1 < (egcdAux (a.value + 1) 0 1 a.modulus a.value).2 := by omega
    simp only [inverse, h1, if_pos]
  · intro hone
    have h1 : ¬ 1 < (egcdAux (a.value + 1) 0 1 a.modulus a.value).2 := by omega
    set res := egcdAux (a.value + 1) 0 1 a.modulus a.value with hres
    set tv : Int := if res.1 < 0 then res.1 + (a.modulus : Int) else res.1 with htv
    have htv0 : 0 ≤ tv := by
      rw [htv]
      split <;> omega
    have htmod : tv ≡ res.1 [ZMOD (a.modulus : Int)] := by
      rw [htv]
      split
      · have hz : ((a.modulus : Int)) ≡ 0 [ZMOD (a.modulus : Int)] :=
          Int.modEq_zero_iff_dvd.mpr dvd_rfl
        simpa only [add_zero] using (Int.ModEq.add_left res.1 hz)
      · rfl
    refine ⟨Felt.new tv.toNat a.modulus, ?_, rfl, new_reduced _ (by omega), ?_⟩
    · simp only [inverse, h1, if_neg, not_false_iff]
    · have hc1 : res.1 * (a.value : Int) ≡ 1 [ZMOD (a.modulus : Int)] := by
      
        have : ((res.2 : Nat) : Int) = (1 : Int) := by
          rw [hgcd, hone]
          rfl
        rw [← this]
        exact hcong
    
      have hc2 : ((a.value : Int) * (tv.toNat % a.modulus : Nat) : Int) ≡ 1
          [ZMOD (a.modulus : Int)] := by
        have he : ((tv.toNat % a.modulus : Nat) : Int) ≡ tv [ZMOD (a.modulus : Int)] := by
          push_cast
          rw [Int.toNat_of_nonneg htv0]
          exact Int.emod_emod_of_dvd tv dvd_rfl
        calc (a.value : Int) * ((tv.toNat % a.modulus : Nat) : Int)
            ≡ (a.value : Int) * tv [ZMOD (a.modulus : Int)] := he.mul_left _
          _ ≡ (a.value : Int) * res.1 [ZMOD (a.modulus : Int)] := htmod.mul_left _
          _ = res.1 * (a.value : Int) := by ring
          _ ≡ 1 [ZMOD (a.modulus : Int)] := hc1
      have hc3 : (a.value * (tv.toNat % a.modulus)) ≡ 1 [MOD a.modulus] := by
        rw [← Int.natCast_modEq_iff]
        exact_mod_cast hc2
      have := hc3
      unfold Nat.ModEq at this
      simpa [Nat.mod_eq_of_lt (show 1 < a.modulus by omega)] using this

end Felt

/-- A modular inverse below the modulus is unique. -/
theorem modInverse_unique {M V u v : Nat} (hu : u < M) (hv : v < M)
    (h1 : (V * u) % M = 1) (h2 : (V * v) % M = 1) : u = v := by
  have hM : 2 ≤ M := by
    rcases Nat.lt_or_ge M 2 with h | h
    · interval_cases M <;> omega
    · exact h
  have e1 : V * u ≡ 1 [MOD M] := by
    unfold Nat.ModEq
    rw [h1, Nat.mod_eq_of_lt (by omega)]
  have e2 : V * v ≡ 1 [MOD M] := by
    unfold Nat.ModEq
    rw [h2, Nat.mod_eq_of_lt (by omega)]
  have c4 : u ≡ v [MOD M] := by
    calc u = u * 1 := by ring
    _ ≡ u * (V * v) [MOD M] := e2.mul_left u |>.symm
    _ = (V * u) * v := by ring
    _ ≡ 1 * v [MOD M] := e1.mul_right v
    _ = v := one_mul v
  unfold Nat.ModEq at c4
  rwa [Nat.mod_eq_of_lt hu, Nat.mod_eq_of_lt hv] at c4

namespace Felt

theorem inverse_ok_inv {a c : Felt} (h : a.inverse = .ok c) :
    c.modulus = a.modulus ∧ (0 < a.modulus → c.Reduced) := by
  simp only [inverse] at h
  split at h
  · exact absurd h (by simp)
  · injection h with h2
    subst h2
    exact ⟨rfl, fun hm => new_reduced _ hm⟩

theorem div_ok_inv {a b c : Felt} (h : a.div b = .ok c) :
    a.modulus = b.modulus ∧ b.value ≠ 0 ∧ ∃ i, b.inverse = .ok i ∧ c = mulU a i := by
  unfold div at h
  by_cases hm : a.modulus = b.modulus
  · by_cases hz : b.value = 0
    · simp [hm, hz] at h
    · simp only [hm, hz, ite_false, not_true_eq_false, ne_eq, not_false_eq_true,
        if_neg, if_false] at h
      rcases hinv : b.inverse with e | i
      · rcases e with ⟨v, m⟩
        rw [hinv] at h
        simp at h
      · rw [hinv] at h
        obtain ⟨_, hc⟩ := mul_ok_inv h
        exact ⟨hm, hz, i, rfl, hc⟩
  · simp [hm] at h

theorem z_new (m v : Nat) : z m (Felt.new v m) = (v : ZMod m) := by
  unfold z
  exact ZMod.natCast_mod v m

theorem z_addU {m : Nat} {a b : Felt} (ha : a.modulus = m) :
    z m (addU a b) = z m a + z m b := by
  subst ha
  unfold addU
  rw [z_new]
  push_cast
  rfl

theorem z_subU {m : Nat} {a b : Felt} (ha : a.modulus = m) (hb : b.value ≤ m) :
    z m (subU a b) = z m a - z m b := by
  subst ha
  unfold subU
  split
  · rw [z_new, Nat.cast_sub (by omega)]
    push_cast
    rw [ZMod.natCast_self]
    unfold z
    ring
  · rw [z_new, Nat.cast_sub (by omega)]
    unfold z
    ring

theorem z_mulU {m : Nat} {a b : Felt} (ha : a.modulus = m) :
    z m (mulU a b) = z m a * z m b := by
  subst ha
  unfold mulU
  rw [z_new]
  push_cast
  rfl

theorem z_neg {m : Nat} {a : Felt} (ha : a.modulus = m) (hr : a.value ≤ m) :
    z m a.neg = - z m a := by
  subst ha
  unfold neg
  rw [z_new, Nat.cast_sub hr, ZMod.natCast_self]
  unfold z
  ring

theorem z_powAux {m : Nat} :
    ∀ (fuel : Nat) (r b : Felt) (e : Nat), e < fuel → r.modulus = m → b.modulus = m →
    z m (powAux fuel r b e) = z m r * (z m b) ^ e := by
  intro fuel
  induction fuel with
  | zero => omega
  | succ fuel ih =>
    intro r b e hfuel hr hb
    by_cases he : e = 0
    · subst he
      simp [powAux]
    · have hstep : powAux (fuel + 1) r b e =
          powAux fuel (if e % 2 = 1 then mulU r b else r) (mulU b b) (e / 2) := by
        simp [powAux, he]
      have hr2 : (if e % 2 = 1 then mulU r b else r).modulus = m := by
        split
        · rw [mulU_modulus, hr]
        · exact hr
      have hb2 : (mulU b b).modulus = m := by rw [mulU_modulus, hb]
      rw [hstep, ih _ _ _ (by omega) hr2 hb2]
      have hbb : z m (mulU b b) = z m b * z m b := z_mulU hb
      rcases Nat.mod_two_eq_zero_or_one e with h2 | h2
      · rw [if_neg (by omega), hbb]
        have hpow : (z m b * z m b) ^ (e / 2) = (z m b) ^ e := by
          rw [← sq, ← pow_mul]
          congr 1
          omega
        rw [hpow]
      · rw [if_pos h2, z_mulU hr, hbb]
        have hpow : (z m b * z m b) ^ (e / 2) = (z m b) ^ (e - 1) := by
          rw [← sq, ← pow_mul]
          congr 1
          omega
        rw [hpow, mul_assoc, ← pow_succ']
        congr 2
        omega

theorem z_pow {m : Nat} {a : Felt} (ha : a.modulus = m) (e : Nat) :
    z m (a.pow e) = (z m a) ^ e := by
  unfold pow
  rw [ha, z_powAux (e + 1) _ _ _ (by omega) (by simp) ha, z_new]
  push_cast
  ring

theorem z_eq_iff {m : Nat} (hm : 0 < m) {a b : Felt} (ha : a.modulus = m)
    (hb : b.modulus = m) (hra : a.Reduced) (hrb : b.Reduced) :
    a = b ↔ z m a = z m b := by
  constructor
  · rintro rfl
    rfl
  · intro h
    haveI : NeZero m := ⟨Nat.pos_iff_ne_zero.mp hm⟩
    have hv : a.value = b.value := by
      have h1 := congrArg ZMod.val h
      unfold z at h1
      rwa [ZMod.val_natCast, ZMod.val_natCast,
        Nat.mod_eq_of_lt (ha ▸ hra), Nat.mod_eq_of_lt (hb ▸ hrb)] at h1
    rcases a with ⟨va, ma⟩
    rcases b with ⟨vb, mb⟩
    simp only [Felt.mk.injEq]
    simp only at hv ha hb
    omega

theorem z_inverse {m : Nat} {a c : Felt} (hM : 2 ≤ m) (ha : a.modulus = m)
    (h : a.inverse = .ok c) : z m c * z m a = 1 := by
  subst ha
  obtain ⟨herr, hok⟩ := inverse_spec a hM
  by_cases hg : Nat.gcd a.value a.modulus = 1
  · obtain ⟨c2, hc2, _, _, hval⟩ := hok hg
    rw [hc2] at h
    injection h with h2
    subst h2
    have hcast : ((a.value * c2.value : Nat) : ZMod a.modulus) = ((1 : Nat) : ZMod a.modulus) := by
      rw [← ZMod.natCast_mod, hval]
    push_cast at hcast
    unfold z
    rw [mul_comm]
    simpa using hcast
  · rw [herr hg] at h
    exact absurd h (by simp)

theorem z_div {m : Nat} {a b c : Felt} (hM : 2 ≤ m) (ha : a.modulus = m)
    (hb : b.modulus = m) (h : a.div b = .ok c) :
    z m c * z m b = z m a ∧ ∃ w : ZMod m, z m b * w = 1 := by
  obtain ⟨-, -, i, hi, hc⟩ := div_ok_inv h
  have hzi : z m i * z m b = 1 := z_inverse hM hb hi
  subst hc
  constructor
  · rw [z_mulU ha]
    calc z m a * z m i * z m b = z m a * (z m i * z m b) := by ring
    _ = z m a := by rw [hzi, mul_one]
  · exact ⟨z m i, by rw [mul_comm]; exact hzi⟩

theorem subU_reduced {a : Felt} (b : Felt) (hm : 0 < a.modulus) : (subU a b).Reduced := by
  unfold subU
  split <;> exact new_reduced _ hm

theorem Reduced.lt {a : Felt} (h : a.Reduced) : a.value < a.modulus := h

end Felt

/-- C8: every field element observable at the public interface has its
value in `[0, modulus)`: `new(value, modulus)` with `modulus > 1` stores
`value mod modulus`, and the results of `add`, `sub`, `mul`, `neg`,
`pow`, `inverse` and `div` are always reduced, so `0 ≤ value < modulus`
is preserved by every operation. -/
theorem felt_results_reduced :
    (∀ v m : Nat, 1 < m → (Felt.new v m).value = v % m ∧ (Felt.new v m).Reduced) ∧
    (∀ a b c : Felt, 1 < a.modulus → Felt.add a b = .ok c → c.Reduced) ∧
    (∀ a b c : Felt, 1 < a.modulus → Felt.sub a b = .ok c → c.Reduced) ∧
    (∀ a b c : Felt, 1 < a.modulus → Felt.mul a b = .ok c → c.Reduced) ∧
    (∀ a : Felt, 1 < a.modulus → a.neg.Reduced) ∧
    (∀ (a : Felt) (e : Nat), 1 < a.modulus → (a.pow e).Reduced) ∧
    (∀ a c : Felt, 1 < a.modulus → a.inverse = .ok c → c.Reduced) ∧
    (∀ a b c : Felt, 1 < a.modulus → a.div b = .ok c → c.Reduced) := by
  refine ⟨fun v m hm => ⟨rfl, Felt.new_reduced _ (by omega)⟩,
    fun a b c hm h => ?_, fun a b c hm h => ?_, fun a b c hm h => ?_,
    fun a hm => Felt.new_reduced _ (by omega),
    fun a e hm => Felt.pow_reduced _ _ (by omega),
    fun a c hm h => (Felt.inverse_ok_inv h).2 (by omega),
    fun a b c hm h => ?_⟩
  · obtain ⟨-, rfl⟩ := Felt.add_ok_inv h
    exact Felt.new_reduced _ (by omega)
  · obtain ⟨-, rfl⟩ := Felt.sub_ok_inv h
    exact Felt.subU_reduced _ (by omega)
  · obtain ⟨-, rfl⟩ := Felt.mul_ok_inv h
    exact Felt.new_reduced _ (by omega)
  · obtain ⟨-, -, i, -, rfl⟩ := Felt.div_ok_inv h
    exact Felt.new_reduced _ (by omega)

/-- Witness for C8 at concrete inputs. -/
theorem felt_results_reduced_witness :
    (Felt.new 9 7).value = 9 % 7 ∧ (Felt.new 9 7).Reduced :=
  felt_results_reduced.1 9 7 (by decide)

/-- C3 counterexample: dividing `5 (mod 7)` by the zero element does not
produce a recoverable result at all — it aborts on the fatal panic
channel (`Panic.divisionByZero`, the "Cannot divide by zero" `panic!`),
the same abort channel as the modulus-mismatch violations, while the
recoverable error type `FeltError` of the field module has no
division-by-zero variant. -/
theorem div_by_zero_is_panic :
    Felt.div (Felt.new 5 7) (Felt.new 0 7) = .error Panic.divisionByZero := by decide

/-- C3 (amended): for two field elements with equal moduli, `div` with a
zero divisor aborts with the dedicated division-by-zero panic — the check
happens before any inverse is computed, so the diagnostic is distinct
from the not-invertible panic — and this failure is a fatal panic, not a
recoverable result; when the divisor is nonzero and invertible, `div`
equals `self * other.inverse()`. -/
theorem div_checks_zero_before_inverse (a b : Felt) (hm : a.modulus = b.modulus) :
    (b.value = 0 → a.div b = .error Panic.divisionByZero) ∧
    (∀ i, b.value ≠ 0 → b.inverse = .ok i → a.div b = Felt.mul a i) := by
  constructor
  · intro hz
    unfold Felt.div
    simp [hm, hz]
  · intro i hz hi
    unfold Felt.div
    simp [hm, hz, hi]

/-- Witness for C3 (amended) at a concrete input. -/
theorem div_checks_zero_before_inverse_witness :
    Felt.div (Felt.new 3 9) (Felt.new 0 9) = .error Panic.divisionByZero :=
  (div_checks_zero_before_inverse (Felt.new 3 9) (Felt.new 0 9) rfl).1 rfl

/-- C4: for a field element `(value, modulus)` with `modulus > 1`,
`inverse` fails with `NotInvertible(value, modulus)` exactly when
`gcd(value, modulus) ≠ 1` (in particular for `(0, 7)` and `(3, 9)`);
otherwise it returns the unique `t` in `[0, modulus)` with
`value·t ≡ 1 (mod modulus)`, and then `a * a.inverse() == 1`. -/
theorem inverse_gcd_characterization :
    (∀ a : Felt, 1 < a.modulus →
      (a.inverse = .error (.NotInvertible a.value a.modulus) ↔
        Nat.gcd a.value a.modulus ≠ 1)) ∧
    (∀ a : Felt, 1 < a.modulus → Nat.gcd a.value a.modulus = 1 →
      ∃ c : Felt, a.inverse = .ok c ∧ c.modulus = a.modulus ∧ c.value < a.modulus ∧
        (a.value * c.value) % a.modulus = 1 ∧
        (∀ u : Nat, u < a.modulus → (a.value * u) % a.modulus = 1 → u = c.value) ∧
        Felt.mul a c = .ok (Felt.new 1 a.modulus)) ∧
    (Felt.new 0 7).inverse = .error (.NotInvertible 0 7) ∧
    (Felt.new 3 9).inverse = .error (.NotInvertible 3 9) := by
  refine ⟨fun a hm => ?_, fun a hm hg => ?_, by decide, by decide⟩
  · obtain ⟨herr, hok⟩ := Felt.inverse_spec a (by omega)
    constructor
    · intro h hg
      obtain ⟨c, hc, -⟩ := hok hg
      rw [hc] at h
      exact absurd h (by simp)
    · exact herr
  · obtain ⟨-, hok⟩ := Felt.inverse_spec a (by omega)
    obtain ⟨c, hc, hcm, hcr, hval⟩ := hok hg
    refine ⟨c, hc, hcm, hcr, hval, fun u hu hu1 => modInverse_unique hu hcr hu1 hval, ?_⟩
    rw [Felt.mul_ok (by omega)]
    congr 1
    unfold Felt.mulU Felt.new
    simp only [Felt.mk.injEq]
    exact ⟨by rw [hval, Nat.mod_eq_of_lt hm], trivial⟩

/-- Witness for C4 at a concrete non-invertible input. -/
theorem inverse_gcd_characterization_witness :
    (Felt.new 2 4).inverse = .error (.NotInvertible (Felt.new 2 4).value (Felt.new 2 4).modulus) ↔
      Nat.gcd (Felt.new 2 4).value (Felt.new 2 4).modulus ≠ 1 :=
  inverse_gcd_characterization.1 (Felt.new 2 4) (by decide)

namespace ECPoint

/-- Under a shared modulus the field arithmetic inside `verify_point`
cannot panic, and the check succeeds exactly on the `ZMod` curve
equation. -/
theorem verifyE_spec (p : ECPoint) (m : Nat) (hm : 1 < m)
    (hx : p.x.modulus = m) (hy : p.y.modulus = m) (ha : p.a.modulus = m)
    (hb : p.b.modulus = m) :
    (OnCurveZ m p → verifyE p = .ok (.ok ())) ∧
    (¬ OnCurveZ m p →
      verifyE p = .ok (.error (.PointNotOnCurve p.x.value p.y.value p.a.value p.b.value))) := by
  have h1 : Felt.mul p.a p.x = .ok (Felt.mulU p.a p.x) := Felt.mul_ok (by omega)
  have h2 : Felt.add (p.x.pow 3) (Felt.mulU p.a p.x) =
      .ok (Felt.addU (p.x.pow 3) (Felt.mulU p.a p.x)) := by
    refine Felt.add_ok ?_
    rw [Felt.pow_modulus, Felt.mulU_modulus, hx, ha]
  have h3 : Felt.add (Felt.addU (p.x.pow 3) (Felt.mulU p.a p.x)) p.b =
      .ok (Felt.addU (Felt.addU (p.x.pow 3) (Felt.mulU p.a p.x)) p.b) := by
    refine Felt.add_ok ?_
    rw [Felt.addU_modulus, Felt.pow_modulus, hx, hb]
  have hred1 : (p.y.pow 2).Reduced := Felt.pow_reduced _ _ (by omega)
  have hred2 : (Felt.addU (Felt.addU (p.x.pow 3) (Felt.mulU p.a p.x)) p.b).Reduced :=
    Felt.new_reduced _ (by rw [Felt.addU_modulus, Felt.pow_modulus, hx]; omega)
  have hmod1 : (p.y.pow 2).modulus = m := by rw [Felt.pow_modulus, hy]
  have hmod2 : (Felt.addU (Felt.addU (p.x.pow 3) (Felt.mulU p.a p.x)) p.b).modulus = m := by
    rw [Felt.addU_modulus, Felt.addU_modulus, Felt.pow_modulus, hx]
  have hz : Felt.z m (Felt.addU (Felt.addU (p.x.pow 3) (Felt.mulU p.a p.x)) p.b) =
      (Felt.z m p.x) ^ 3 + Felt.z m p.a * Felt.z m p.x + Felt.z m p.b := by
    rw [Felt.z_addU (by rw [Felt.addU_modulus, Felt.pow_modulus, hx]),
      Felt.z_addU (by rw [Felt.pow_modulus, hx]), Felt.z_pow hx, Felt.z_mulU ha]
  have hiff : p.y.pow 2 = Felt.addU (Felt.addU (p.x.pow 3) (Felt.mulU p.a p.x)) p.b ↔
      OnCurveZ m p := by
    rw [Felt.z_eq_iff (by omega) hmod1 hmod2 hred1 hred2, Felt.z_pow hy, hz]
    unfold OnCurveZ
    exact Iff.rfl
  constructor
  · intro hc
    unfold verifyE
    simp only [h1, h2, h3, bind, Except.bind, pure, Except.pure]
    rw [if_pos (hiff.mpr hc)]
  · intro hc
    unfold verifyE
    simp only [h1, h2, h3, bind, Except.bind, pure, Except.pure]
    rw [if_neg (fun h => hc (hiff.mp h))]

end ECPoint

namespace ECPoint

/-- The validating constructor under a shared modulus: success exactly on
the curve equation, and the dedicated recoverable error otherwise. -/
theorem newE_spec (x y a b : Felt) (m : Nat) (hm : 1 < m)
    (hx : x.modulus = m) (hy : y.modulus = m) (ha : a.modulus = m) (hb : b.modulus = m) :
    (OnCurveZ m ⟨x, y, a, b, false⟩ →
      newE x y a b = .ok (.ok ⟨x, y, a, b, false⟩)) ∧
    (¬ OnCurveZ m ⟨x, y, a, b, false⟩ →
      newE x y a b = .ok (.error (.PointNotOnCurve x.value y.value a.value b.value))) := by
  obtain ⟨hok, herr⟩ := verifyE_spec ⟨x, y, a, b, false⟩ m hm hx hy ha hb
  constructor
  · intro hc
    unfold newE
    simp only [hok hc, bind, Except.bind, pure, Except.pure]
  · intro hc
    unfold newE
    simp only [herr hc, bind, Except.bind, pure, Except.pure]

end ECPoint

/-- C5: for field elements `x, y, a, b` sharing one modulus `m > 1`, the
curve-point constructor returns `Ok` exactly when `y² ≡ x³ + a·x + b` in
the field, and otherwise returns `PointNotOnCurve(x, y, a, b)` as a
recoverable result; in particular `(8, 4)` on `y² = x³ − x (mod 61)`
constructs successfully and `(4, 4)` on the same curve is rejected. -/
theorem constructor_validates_curve_membership :
    (∀ (x y a b : Felt) (m : Nat), 1 < m →
      x.modulus = m → y.modulus = m → a.modulus = m → b.modulus = m →
      ((ECPoint.newE x y a b = .ok (.ok ⟨x, y, a, b, false⟩) ↔
          ECPoint.OnCurveZ m ⟨x, y, a, b, false⟩) ∧
        (¬ ECPoint.OnCurveZ m ⟨x, y, a, b, false⟩ →
          ECPoint.newE x y a b =
            .ok (.error (.PointNotOnCurve x.value y.value a.value b.value))))) ∧
    ECPoint.newE (Felt.new 8 61) (Felt.new 4 61) (Felt.new 1 61).neg (Felt.new 0 61) =
      .ok (.ok ⟨Felt.new 8 61, Felt.new 4 61, (Felt.new 1 61).neg, Felt.new 0 61, false⟩) ∧
    ECPoint.newE (Felt.new 4 61) (Felt.new 4 61) (Felt.new 1 61).neg (Felt.new 0 61) =
      .ok (.error (.PointNotOnCurve 4 4 60 0)) := by
  refine ⟨fun x y a b m hm hx hy ha hb => ?_, by decide, by decide⟩
  obtain ⟨hok, herr⟩ := ECPoint.newE_spec x y a b m hm hx hy ha hb
  refine ⟨⟨fun h => ?_, hok⟩, herr⟩
  by_cases hc : ECPoint.OnCurveZ m ⟨x, y, a, b, false⟩
  · exact hc
  · rw [herr hc] at h
    injection h with h2
    exact absurd h2 (by simp)

/-- Witness for C5 at the spec's concrete on-curve point. -/
theorem constructor_validates_curve_membership_witness :
    ECPoint.newE (Felt.new 8 61) (Felt.new 4 61) (Felt.new 1 61).neg (Felt.new 0 61) =
        .ok (.ok ⟨Felt.new 8 61, Felt.new 4 61, (Felt.new 1 61).neg, Felt.new 0 61, false⟩) ↔
      ECPoint.OnCurveZ 61
        ⟨Felt.new 8 61, Felt.new 4 61, (Felt.new 1 61).neg, Felt.new 0 61, false⟩ :=
  (constructor_validates_curve_membership.1 (Felt.new 8 61) (Felt.new 4 61)
    (Felt.new 1 61).neg (Felt.new 0 61) 61 (by decide) rfl rfl rfl rfl).1

namespace Felt

theorem neg_neg_of_reduced {a : Felt} (h : a.Reduced) : a.neg.neg = a := by
  rcases a with ⟨v, m⟩
  unfold Reduced at h
  simp only at h
  unfold neg new
  simp only [Felt.mk.injEq, and_true]
  by_cases hv : v = 0
  · subst hv
    simp [Nat.mod_self]
  · have h1 : (m - v) % m = m - v := Nat.mod_eq_of_lt (by omega)
    rw [h1]
    have h2 : m - (m - v) = v := by omega
    rw [h2]
    exact Nat.mod_eq_of_lt h

end Felt

namespace ECPoint

@[simp] theorem mkInfinity_a (a b : Felt) : (mkInfinity a b).a = a := rfl

@[simp] theorem mkInfinity_b (a b : Felt) : (mkInfinity a b).b = b := rfl

@[simp] theorem mkInfinity_infinity (a b : Felt) : (mkInfinity a b).infinity = true := rfl

/-- An infinity point that satisfies the validity sentinel is literally
the `infinity(a, b)` factory value. -/
theorem valid_infinity_eq {p : ECPoint} (hv : p.Valid) (hi : p.infinity = true) :
    p = mkInfinity p.a p.b := by
  obtain ⟨-, -, -, -, -, -, -, -, hsent, -⟩ := hv
  obtain ⟨hx, hy⟩ := hsent hi
  rcases p with ⟨x, y, a, b, inf⟩
  simp only at hx hy hi
  unfold mkInfinity
  simp only [ECPoint.mk.injEq]
  exact ⟨hx, hy, trivial, trivial, hi⟩

/-- Negation of a valid affine point succeeds and negates `y`. -/
theorem negE_valid_affine {p : ECPoint} (hv : p.Valid) (hi : p.infinity = false) :
    negE p = .ok ⟨p.x, p.y.neg, p.a, p.b, false⟩ := by
  obtain ⟨hm, hx, hy, hb, hrx, hry, hra, hrb, -, honc⟩ := hv
  have hc : OnCurveZ p.a.modulus ⟨p.x, p.y.neg, p.a, p.b, false⟩ := by
    have h0 := honc hi
    unfold OnCurveZ at h0 ⊢
    simp only
    rw [Felt.z_neg hy (le_of_lt (hy ▸ hry)), neg_sq]
    exact h0
  have hnew := (newE_spec p.x p.y.neg p.a p.b p.a.modulus hm hx
    (by rw [Felt.neg_modulus, hy]) rfl hb).1 hc
  unfold negE
  simp only [hi, Bool.false_eq_true, if_neg, not_false_eq_true, hnew, bind, Except.bind,
    pure, Except.pure]

/-- Negation fixes the identity. -/
theorem negE_infinity {p : ECPoint} (hi : p.infinity = true) : negE p = .ok p := by
  unfold negE
  simp [hi, pure, Except.pure]

end ECPoint

namespace ECPoint

theorem addE_left_infinity {p q : ECPoint} (ha : p.a = q.a) (hb : p.b = q.b)
    (hpi : p.infinity = true) : addE p q = .ok q := by
  unfold addE
  simp [ha, hb, hpi, pure, Except.pure]

theorem addE_right_infinity {p q : ECPoint} (ha : p.a = q.a) (hb : p.b = q.b)
    (hpi : p.infinity = false) (hqi : q.infinity = true) : addE p q = .ok p := by
  unfold addE
  simp [ha, hb, hpi, hqi, pure, Except.pure]

/-- `P + (−P) = 0` for every valid point. -/
theorem addE_neg_self {p : ECPoint} (hv : p.Valid) :
    ∃ np, negE p = .ok np ∧ addE p np = .ok (mkInfinity p.a p.b) := by
  rcases hi : p.infinity with hfalse | htrue
  · -- affine case
    have hnp := negE_valid_affine hv hi
    refine ⟨⟨p.x, p.y.neg, p.a, p.b, false⟩, hnp, ?_⟩
    obtain ⟨hm, hx, hy, hb, hrx, hry, hra, hrb, -, honc⟩ := hv
    have hnpv : ECPoint.Valid ⟨p.x, p.y.neg, p.a, p.b, false⟩ := by
      refine ⟨hm, hx, by rw [Felt.neg_modulus]; exact hy, hb, hrx,
        Felt.new_reduced _ (by rw [hy]; omega), hra, hrb, by simp, fun _ => ?_⟩
      have h0 := honc hi
      unfold OnCurveZ at h0 ⊢
      simp only
      rw [Felt.z_neg hy (le_of_lt (hy ▸ hry)), neg_sq]
      exact h0
    have hnn := negE_valid_affine hnpv rfl
    simp only at hnn
    rw [Felt.neg_neg_of_reduced hry] at hnn
    have hpeq : (⟨p.x, p.y, p.a, p.b, false⟩ : ECPoint) = p := by
      rcases p with ⟨x, y, a, b, inf⟩
      simp only at hi
      rw [hi]
    rw [hpeq] at hnn
    unfold addE
    simp only [ne_eq, or_self, if_neg, not_false_eq_true, hi, Bool.false_eq_true,
      bind, Except.bind, hnn, pure, Except.pure]
    simp
  · -- p is the identity itself
    refine ⟨p, negE_infinity hi, ?_⟩
    rw [addE_left_infinity rfl rfl hi, valid_infinity_eq hv hi]
    rfl

end ECPoint

/-- C6: for every valid point `P` on curve `(a, b)`:
`P + infinity(a,b) = P`, `infinity(a,b) + P = P`,
`infinity + infinity = infinity`, and `P + (−P) = infinity`. -/
theorem identity_and_inverse_group_laws (p : ECPoint) (hv : p.Valid) :
    ECPoint.addE p (ECPoint.mkInfinity p.a p.b) = .ok p ∧
    ECPoint.addE (ECPoint.mkInfinity p.a p.b) p = .ok p ∧
    ECPoint.addE (ECPoint.mkInfinity p.a p.b) (ECPoint.mkInfinity p.a p.b) =
      .ok (ECPoint.mkInfinity p.a p.b) ∧
    ∃ np, ECPoint.negE p = .ok np ∧
      ECPoint.addE p np = .ok (ECPoint.mkInfinity p.a p.b) := by
  refine ⟨?_, ?_, ?_, ECPoint.addE_neg_self hv⟩
  · rcases hi : p.infinity with hfalse | htrue
    · exact ECPoint.addE_right_infinity rfl rfl hi rfl
    · rw [@ECPoint.addE_left_infinity p (ECPoint.mkInfinity p.a p.b) rfl rfl hi]
      exact congrArg Except.ok (ECPoint.valid_infinity_eq hv hi).symm
  · exact ECPoint.addE_left_infinity rfl rfl rfl
  · exact ECPoint.addE_left_infinity rfl rfl rfl

/-- Witness for C6 at the concrete point `(18, 26)` on
`y² = x³ + 3·x + 7 (mod 37)`. -/
theorem identity_and_inverse_group_laws_witness :
    ECPoint.addE checkP (ECPoint.mkInfinity checkP.a checkP.b) = .ok checkP ∧
    ECPoint.addE (ECPoint.mkInfinity checkP.a checkP.b) checkP = .ok checkP ∧
    ECPoint.addE (ECPoint.mkInfinity checkP.a checkP.b)
      (ECPoint.mkInfinity checkP.a checkP.b) =
      .ok (ECPoint.mkInfinity checkP.a checkP.b) ∧
    ∃ np, ECPoint.negE checkP = .ok np ∧
      ECPoint.addE checkP np = .ok (ECPoint.mkInfinity checkP.a checkP.b) :=
  identity_and_inverse_group_laws checkP (by decide)

/-- Chord case of the group law, over an arbitrary commutative ring: if
two points satisfy the curve equation, `s` satisfies the chord slope
relation, and `x₂ − x₁` is invertible, then the chord/tangent image
satisfies the curve equation.  Proved by factoring the cubic
`u³ + a·u + b − (s·u + c)²` through its two known roots. -/
theorem chord_image_on_curve {R : Type} [CommRing R]
    (x1 y1 x2 y2 a b s t x3 c al be : R)
    (hx3 : x3 = s ^ 2 - x1 - x2)
    (hc : c = y1 - s * x1)
    (hal : al = a - 2 * s * c - (x1 * x2 + x1 * x3 + x2 * x3))
    (hbe : be = b - c ^ 2 + x1 * x2 * x3)
    (e1 : y1 ^ 2 = x1 ^ 3 + a * x1 + b)
    (e2 : y2 ^ 2 = x2 ^ 3 + a * x2 + b)
    (hs : s * (x2 - x1) = y2 - y1)
    (ht : (x2 - x1) * t = 1) :
    (s * (x1 - x3) - y1) ^ 2 = x3 ^ 3 + a * x3 + b := by
  have key : ∀ u : R, u ^ 3 + a * u + b - (s * u + c) ^ 2 =
      (u - x1) * (u - x2) * (u - x3) + al * u + be := by
    intro u
    rw [hal, hbe, hc, hx3]
    ring
  have h2 : x1 ^ 3 + a * x1 + b - (s * x1 + c) ^ 2 = 0 := by
    rw [hc]
    linear_combination -e1
  have hp1 : al * x1 + be = 0 := by
    have h1 := key x1
    linear_combination h2 - h1
  have hy2 : s * x2 + c = y2 := by
    rw [hc]
    linear_combination hs
  have h3 : x2 ^ 3 + a * x2 + b - (s * x2 + c) ^ 2 = 0 := by
    rw [hy2]
    linear_combination -e2
  have hp2 : al * x2 + be = 0 := by
    have h1 := key x2
    linear_combination h3 - h1
  have hal0 : al = 0 := by
    have hd : al * (x2 - x1) = 0 := by linear_combination hp2 - hp1
    calc al = al * ((x2 - x1) * t) := by rw [ht]; ring
    _ = (al * (x2 - x1)) * t := by ring
    _ = 0 := by rw [hd]; ring
  have hbe0 : be = 0 := by linear_combination hp1 - x1 * hal0
  have h4 := key x3
  have hyr : s * (x1 - x3) - y1 = -(s * x3 + c) := by
    rw [hc]
    ring
  rw [hyr, neg_sq]
  linear_combination -h4 - x3 * hal0 - hbe0

/-- Tangent (doubling) case of the group law, over an arbitrary
commutative ring: here the slope relation forces the linear remainder to
vanish outright, with no invertibility needed beyond the success of the
division that produced `s`. -/
theorem tangent_image_on_curve {R : Type} [CommRing R]
    (x1 y1 a b s x3 c al be : R)
    (hx3 : x3 = s ^ 2 - x1 - x1)
    (hc : c = y1 - s * x1)
    (hal : al = a - 2 * s * c - (x1 * x1 + x1 * x3 + x1 * x3))
    (hbe : be = b - c ^ 2 + x1 * x1 * x3)
    (e1 : y1 ^ 2 = x1 ^ 3 + a * x1 + b)
    (hs : s * (2 * y1) = 3 * x1 ^ 2 + a) :
    (s * (x1 - x3) - y1) ^ 2 = x3 ^ 3 + a * x3 + b := by
  have key : ∀ u : R, u ^ 3 + a * u + b - (s * u + c) ^ 2 =
      (u - x1) * (u - x1) * (u - x3) + al * u + be := by
    intro u
    rw [hal, hbe, hc, hx3]
    ring
  have h2 : x1 ^ 3 + a * x1 + b - (s * x1 + c) ^ 2 = 0 := by
    rw [hc]
    linear_combination -e1
  have hp1 : al * x1 + be = 0 := by
    have h1 := key x1
    linear_combination h2 - h1
  have hal0 : al = 0 := by
    rw [hal, hc, hx3]
    linear_combination -hs
  have hbe0 : be = 0 := by linear_combination hp1 - x1 * hal0
  have h4 := key x3
  have hyr : s * (x1 - x3) - y1 = -(s * x3 + c) := by
    rw [hc]
    ring
  rw [hyr, neg_sq]
  linear_combination -h4 - x3 * hal0 - hbe0

namespace ECPoint

/-- Unpacking a successful slope computation: the slope is a reduced
element of the shared modulus and satisfies the tangent (equal points) or
chord (distinct points) relation in `ZMod m`; in the chord case the
denominator is invertible. -/
theorem slopeE_spec {p q : ECPoint} (hvp : p.Valid) (hvq : q.Valid) (ha : p.a = q.a)
    {s : Felt} (hs : slopeE p q = .ok s) :
    s.modulus = p.a.modulus ∧ s.Reduced ∧
    ((p = q ∧ Felt.z p.a.modulus s * (2 * Felt.z p.a.modulus p.y) =
        3 * (Felt.z p.a.modulus p.x) ^ 2 + Felt.z p.a.modulus p.a) ∨
      (p ≠ q ∧
        Felt.z p.a.modulus s * (Felt.z p.a.modulus q.x - Felt.z p.a.modulus p.x) =
          Felt.z p.a.modulus q.y - Felt.z p.a.modulus p.y ∧
        ∃ w : ZMod p.a.modulus,
          (Felt.z p.a.modulus q.x - Felt.z p.a.modulus p.x) * w = 1)) := by
  obtain ⟨hm, hx, hy, hb, hrx, hry, hra, hrb, -, -⟩ := hvp
  obtain ⟨hm', hx', hy', hb', hrx', hry', hra', hrb', -, -⟩ := hvq
  set m := p.a.modulus with hmdef
  have hqa : q.a.modulus = m := by rw [← ha]
  by_cases heq : p = q
  · unfold slopeE at hs
    rw [if_pos heq] at hs
    have e1 : Felt.mul (Felt.new 3 m) (p.x.pow 2) =
        .ok (Felt.mulU (Felt.new 3 m) (p.x.pow 2)) :=
      Felt.mul_ok (by rw [Felt.new_modulus, Felt.pow_modulus, hx])
    have e2 : Felt.add (Felt.mulU (Felt.new 3 m) (p.x.pow 2)) p.a =
        .ok (Felt.addU (Felt.mulU (Felt.new 3 m) (p.x.pow 2)) p.a) :=
      Felt.add_ok (by rw [Felt.mulU_modulus, Felt.new_modulus])
    have e3 : Felt.mul (Felt.new 2 m) p.y = .ok (Felt.mulU (Felt.new 2 m) p.y) :=
      Felt.mul_ok (by rw [Felt.new_modulus, hy])
    rw [← hmdef] at hs
    simp only [e1, e2, e3, bind, Except.bind] at hs
    have hnm : (Felt.addU (Felt.mulU (Felt.new 3 m) (p.x.pow 2)) p.a).modulus = m := by
      rw [Felt.addU_modulus, Felt.mulU_modulus, Felt.new_modulus]
    have hdm : (Felt.mulU (Felt.new 2 m) p.y).modulus = m := by
      rw [Felt.mulU_modulus, Felt.new_modulus]
    obtain ⟨hmod, -, i, -, hmul⟩ := Felt.div_ok_inv hs
    have hsm : s.modulus = m := by
      subst hmul
      rw [Felt.mulU_modulus, hnm]
    obtain ⟨hrel, -⟩ := Felt.z_div (by omega) hnm hdm hs
    have hzden : Felt.z m (Felt.mulU (Felt.new 2 m) p.y) = 2 * Felt.z m p.y := by
      rw [Felt.z_mulU (by rw [Felt.new_modulus]), Felt.z_new]
      push_cast
      ring
    have hznum : Felt.z m (Felt.addU (Felt.mulU (Felt.new 3 m) (p.x.pow 2)) p.a) =
        3 * (Felt.z m p.x) ^ 2 + Felt.z m p.a := by
      rw [Felt.z_addU (by rw [Felt.mulU_modulus, Felt.new_modulus]),
        Felt.z_mulU (by rw [Felt.new_modulus]), Felt.z_pow hx, Felt.z_new]
      push_cast
      ring
    refine ⟨hsm, ?_, Or.inl ⟨heq, ?_⟩⟩
    · subst hmul
      exact Felt.new_reduced _ (by rw [hnm]; omega)
    · rw [← hzden, ← hznum]
      exact hrel
  · unfold slopeE at hs
    rw [if_neg heq] at hs
    have e1 : Felt.sub q.y p.y = .ok (Felt.subU q.y p.y) :=
      Felt.sub_ok (by rw [hy', hqa, hy])
    have e2 : Felt.sub q.x p.x = .ok (Felt.subU q.x p.x) :=
      Felt.sub_ok (by rw [hx', hqa, hx])
    simp only [e1, e2, bind, Except.bind] at hs
    have hnm : (Felt.subU q.y p.y).modulus = m := by rw [Felt.subU_modulus, hy', hqa]
    have hdm : (Felt.subU q.x p.x).modulus = m := by rw [Felt.subU_modulus, hx', hqa]
    obtain ⟨hmod, -, i, -, hmul⟩ := Felt.div_ok_inv hs
    have hsm : s.modulus = m := by
      subst hmul
      rw [Felt.mulU_modulus, hnm]
    obtain ⟨hrel, w, hw⟩ := Felt.z_div (by omega) hnm hdm hs
    have hzden : Felt.z m (Felt.subU q.x p.x) = Felt.z m q.x - Felt.z m p.x :=
      Felt.z_subU (by rw [hx', hqa]) (by have h0 := hrx.lt; omega)
    have hznum : Felt.z m (Felt.subU q.y p.y) = Felt.z m q.y - Felt.z m p.y :=
      Felt.z_subU (by rw [hy', hqa]) (by have h0 := hry.lt; omega)
    refine ⟨hsm, ?_, Or.inr ⟨heq, ?_, ⟨w, ?_⟩⟩⟩
    · subst hmul
      exact Felt.new_reduced _ (by rw [hnm]; omega)
    · rw [← hzden, ← hznum]
      exact hrel
    · rw [← hzden]
      exact hw

end ECPoint

/-- C9: in point addition, for valid same-curve affine inputs reaching
the doubling or general-addition case (after the slope division has
succeeded), the computed result `x_r = s² − x₁ − x₂`,
`y_r = s·(x₁ − x_r) − y₁` always satisfies the curve equation, so the
validating-constructor call that builds the result (and the unwrap of
it) can never fail: addition returns a valid point. -/
theorem addition_result_on_curve (p q : ECPoint) (hvp : p.Valid) (hvq : q.Valid)
    (ha : p.a = q.a) (hb : p.b = q.b) (hpi : p.infinity = false) (hqi : q.infinity = false)
    (hne : p ≠ ⟨q.x, q.y.neg, q.a, q.b, false⟩)
    (s : Felt) (hs : ECPoint.slopeE p q = .ok s) :
    ∃ r : ECPoint,
      ECPoint.newE (Felt.subU (Felt.subU (s.pow 2) p.x) q.x)
        (Felt.subU (Felt.mulU s
          (Felt.subU p.x (Felt.subU (Felt.subU (s.pow 2) p.x) q.x))) p.y) p.a p.b =
        .ok (.ok r) ∧
      ECPoint.addE p q = .ok r ∧ r.Valid := by
  obtain ⟨hsm, hsr, hcases⟩ := ECPoint.slopeE_spec hvp hvq ha hs
  have hvq2 := hvq
  obtain ⟨hm, hx, hy, hbm, hrx, hry, hra, hrb, -, honc⟩ := hvp
  obtain ⟨hm', hx', hy', hbm', hrx', hry', hra', hrb', -, honc'⟩ := hvq
  have hqa : q.a.modulus = p.a.modulus := by rw [← ha]
  have hxr1m : (Felt.subU (s.pow 2) p.x).modulus = p.a.modulus := by
    rw [Felt.subU_modulus, Felt.pow_modulus, hsm]
  have hxrm : (Felt.subU (Felt.subU (s.pow 2) p.x) q.x).modulus = p.a.modulus := by
    rw [Felt.subU_modulus, hxr1m]
  have hxrr : (Felt.subU (Felt.subU (s.pow 2) p.x) q.x).Reduced :=
    Felt.subU_reduced _ (by rw [hxr1m]; omega)
  have hyrm : (Felt.subU (Felt.mulU s
      (Felt.subU p.x (Felt.subU (Felt.subU (s.pow 2) p.x) q.x))) p.y).modulus =
      p.a.modulus := by
    rw [Felt.subU_modulus, Felt.mulU_modulus, hsm]
  have hyrr : (Felt.subU (Felt.mulU s
      (Felt.subU p.x (Felt.subU (Felt.subU (s.pow 2) p.x) q.x))) p.y).Reduced :=
    Felt.subU_reduced _ (by rw [Felt.mulU_modulus, hsm]; omega)
  have hzxr : Felt.z p.a.modulus (Felt.subU (Felt.subU (s.pow 2) p.x) q.x) =
      (Felt.z p.a.modulus s) ^ 2 - Felt.z p.a.modulus p.x - Felt.z p.a.modulus q.x := by
    rw [Felt.z_subU hxr1m (by have h0 := hrx'.lt; omega),
      Felt.z_subU (by rw [Felt.pow_modulus, hsm]) (by have h0 := hrx.lt; omega),
      Felt.z_pow hsm]
  have hzyr : Felt.z p.a.modulus (Felt.subU (Felt.mulU s
      (Felt.subU p.x (Felt.subU (Felt.subU (s.pow 2) p.x) q.x))) p.y) =
      Felt.z p.a.modulus s *
        (Felt.z p.a.modulus p.x -
          Felt.z p.a.modulus (Felt.subU (Felt.subU (s.pow 2) p.x) q.x)) -
        Felt.z p.a.modulus p.y := by
    rw [Felt.z_subU (by rw [Felt.mulU_modulus, hsm]) (by have h0 := hry.lt; omega),
      Felt.z_mulU hsm,
      Felt.z_subU hx (by have h0 := hxrr.lt; omega)]
  have hc : ECPoint.OnCurveZ p.a.modulus
      ⟨Felt.subU (Felt.subU (s.pow 2) p.x) q.x,
        Felt.subU (Felt.mulU s
          (Felt.subU p.x (Felt.subU (Felt.subU (s.pow 2) p.x) q.x))) p.y,
        p.a, p.b, false⟩ := by
    unfold ECPoint.OnCurveZ
    simp only
    rw [hzyr, hzxr]
    rcases hcases with ⟨heq, hrel⟩ | ⟨-, hrel, w, hw⟩
    · have e1 : (Felt.z p.a.modulus p.y) ^ 2 =
          (Felt.z p.a.modulus p.x) ^ 3 +
            Felt.z p.a.modulus p.a * Felt.z p.a.modulus p.x + Felt.z p.a.modulus p.b :=
        honc hpi
      have hqx : q.x = p.x := by rw [← heq]
      rw [hqx]
      exact tangent_image_on_curve (Felt.z p.a.modulus p.x) (Felt.z p.a.modulus p.y)
        (Felt.z p.a.modulus p.a) (Felt.z p.a.modulus p.b) (Felt.z p.a.modulus s)
        ((Felt.z p.a.modulus s) ^ 2 - Felt.z p.a.modulus p.x - Felt.z p.a.modulus p.x)
        (Felt.z p.a.modulus p.y - Felt.z p.a.modulus s * Felt.z p.a.modulus p.x) _ _
        rfl rfl rfl rfl e1 hrel
    · have e1 : (Felt.z p.a.modulus p.y) ^ 2 =
          (Felt.z p.a.modulus p.x) ^ 3 +
            Felt.z p.a.modulus p.a * Felt.z p.a.modulus p.x + Felt.z p.a.modulus p.b :=
        honc hpi
      have e2 : (Felt.z p.a.modulus q.y) ^ 2 =
          (Felt.z p.a.modulus q.x) ^ 3 +
            Felt.z p.a.modulus p.a * Felt.z p.a.modulus q.x + Felt.z p.a.modulus p.b := by
        have h0 := honc' hqi
        unfold ECPoint.OnCurveZ at h0
        rw [ha, hb]
        exact h0
      exact chord_image_on_curve (Felt.z p.a.modulus p.x) (Felt.z p.a.modulus p.y)
        (Felt.z p.a.modulus q.x) (Felt.z p.a.modulus q.y)
        (Felt.z p.a.modulus p.a) (Felt.z p.a.modulus p.b) (Felt.z p.a.modulus s) w
        ((Felt.z p.a.modulus s) ^ 2 - Felt.z p.a.modulus p.x - Felt.z p.a.modulus q.x)
        (Felt.z p.a.modulus p.y - Felt.z p.a.modulus s * Felt.z p.a.modulus p.x) _ _
        rfl rfl rfl rfl e1 e2 hrel hw
  have hnew := (ECPoint.newE_spec (Felt.subU (Felt.subU (s.pow 2) p.x) q.x)
    (Felt.subU (Felt.mulU s
      (Felt.subU p.x (Felt.subU (Felt.subU (s.pow 2) p.x) q.x))) p.y) p.a p.b
    p.a.modulus hm hxrm hyrm rfl hbm).1 hc
  refine ⟨_, hnew, ?_, ?_⟩
  · have hnq := ECPoint.negE_valid_affine hvq2 hqi
    have e1 : Felt.sub (s.pow 2) p.x = .ok (Felt.subU (s.pow 2) p.x) :=
      Felt.sub_ok (by rw [Felt.pow_modulus, hsm, hx])
    have e2 : Felt.sub (Felt.subU (s.pow 2) p.x) q.x =
        .ok (Felt.subU (Felt.subU (s.pow 2) p.x) q.x) :=
      Felt.sub_ok (by rw [hxr1m, hx', hqa])
    have e3 : Felt.sub p.x (Felt.subU (Felt.subU (s.pow 2) p.x) q.x) =
        .ok (Felt.subU p.x (Felt.subU (Felt.subU (s.pow 2) p.x) q.x)) :=
      Felt.sub_ok (by rw [hx, hxrm])
    have e4 : Felt.mul s (Felt.subU p.x (Felt.subU (Felt.subU (s.pow 2) p.x) q.x)) =
        .ok (Felt.mulU s (Felt.subU p.x (Felt.subU (Felt.subU (s.pow 2) p.x) q.x))) :=
      Felt.mul_ok (by rw [hsm, Felt.subU_modulus, hx])
    have e5 : Felt.sub (Felt.mulU s
        (Felt.subU p.x (Felt.subU (Felt.subU (s.pow 2) p.x) q.x))) p.y =
        .ok (Felt.subU (Felt.mulU s
          (Felt.subU p.x (Felt.subU (Felt.subU (s.pow 2) p.x) q.x))) p.y) :=
      Felt.sub_ok (by rw [Felt.mulU_modulus, hsm, hy])
    unfold ECPoint.addE
    have hcond : ¬(p.a ≠ q.a ∨ p.b ≠ q.b) := by simp [ha, hb]
    rw [if_neg hcond]
    simp only [hpi, hqi, Bool.false_eq_true, if_false, bind, Except.bind, hnq,
      pure, Except.pure]
    rw [if_neg hne]
    simp only [hs, bind, Except.bind, e1, e2, e3, e4, e5, hnew, pure, Except.pure]
  · exact ⟨hm, hxrm, hyrm, hbm, hxrr, hyrr, hra, hrb, by simp, fun _ => hc⟩

/-- Witness for C9: doubling the point `(24, 25)` on
`y² = x³ + 5·x + 13 (mod 101)` (the spec's doubling test), where the
slope division returns `69`. -/
theorem addition_result_on_curve_witness :
    ∃ r : ECPoint,
      ECPoint.newE
        (Felt.subU (Felt.subU ((Felt.mk 69 101).pow 2) (Felt.new 24 101)) (Felt.new 24 101))
        (Felt.subU (Felt.mulU (Felt.mk 69 101)
          (Felt.subU (Felt.new 24 101)
            (Felt.subU (Felt.subU ((Felt.mk 69 101).pow 2) (Felt.new 24 101))
              (Felt.new 24 101))))
          (Felt.new 25 101))
        (Felt.new 5 101) (Felt.new 13 101) = .ok (.ok r) ∧
      ECPoint.addE
        ⟨Felt.new 24 101, Felt.new 25 101, Felt.new 5 101, Felt.new 13 101, false⟩
        ⟨Felt.new 24 101, Felt.new 25 101, Felt.new 5 101, Felt.new 13 101, false⟩ =
        .ok r ∧ r.Valid :=
  addition_result_on_curve
    ⟨Felt.new 24 101, Felt.new 25 101, Felt.new 5 101, Felt.new 13 101, false⟩
    ⟨Felt.new 24 101, Felt.new 25 101, Felt.new 5 101, Felt.new 13 101, false⟩
    (by decide) (by decide) rfl rfl rfl rfl (by decide) (Felt.mk 69 101) (by decide)

namespace ECPoint

theorem iterAdd_zero (p : ECPoint) : iterAdd 0 p = .ok (mkInfinity p.a p.b) := rfl

theorem iterAdd_succ_of {k : Nat} {p u v : ECPoint} (h : iterAdd k p = .ok u)
    (h2 : addE u p = .ok v) : iterAdd (k + 1) p = .ok v := by
  unfold iterAdd
  rw [h]
  simpa [bind, Except.bind] using h2

theorem iterAdd_succ_ok {k : Nat} {p v : ECPoint} (h : iterAdd (k + 1) p = .ok v) :
    ∃ u, iterAdd k p = .ok u ∧ addE u p = .ok v := by
  unfold iterAdd at h
  rcases hk : iterAdd k p with e | u
  · rw [hk] at h
    simp [bind, Except.bind] at h
  · rw [hk] at h
    simp only [bind, Except.bind] at h
    exact ⟨u, rfl, h⟩

theorem iterAdd_ok_of_le {p v : ECPoint} {k : Nat} (h : iterAdd k p = .ok v) :
    ∀ j, j ≤ k → ∃ u, iterAdd j p = .ok u := by
  induction k generalizing v with
  | zero =>
    intro j hj
    interval_cases j
    exact ⟨v, h⟩
  | succ k ih =>
    intro j hj
    obtain ⟨u, hu, -⟩ := iterAdd_succ_ok h
    rcases Nat.lt_or_ge j (k + 1) with hlt | hge
    · exact ih hu j (by omega)
    · have : j = k + 1 := by omega
      subst this
      exact ⟨v, h⟩

theorem iterAdd_one (p : ECPoint) : iterAdd 1 p = .ok p :=
  iterAdd_succ_of (iterAdd_zero p) (addE_left_infinity rfl rfl rfl)

end ECPoint

namespace ECPoint

/-- Soundness of the brute-force loop: a returned scalar is the index of
the first iterate equal to the target, no earlier iterate (from the start
index on) hits the target or infinity, and the target itself is not the
identity. -/
theorem bruteAux_sound (p t : ECPoint) :
    ∀ (fuel x : Nat) (xp : ECPoint) (k : Nat),
    iterAdd x p = .ok xp →
    bruteAux fuel p t xp x = some (.ok (some k)) →
    x ≤ k ∧ iterAdd k p = .ok t ∧ t ≠ mkInfinity p.a p.b ∧
    (∀ j u, x ≤ j → j < k → iterAdd j p = .ok u →
      u ≠ t ∧ u ≠ mkInfinity p.a p.b) := by
  intro fuel
  induction fuel with
  | zero => intro x xp k _ h; simp [bruteAux] at h
  | succ fuel ih =>
    intro x xp k hx h
    unfold bruteAux at h
    by_cases hinf : xp = mkInfinity p.a p.b
    · rw [if_pos hinf] at h
      simp at h
    · rw [if_neg hinf] at h
      by_cases ht : xp = t
      · rw [if_pos ht] at h
        simp only [Option.some.injEq, Except.ok.injEq] at h
        subst h
        subst ht
        exact ⟨le_refl _, hx, fun he => hinf (by rw [he]), fun j u h1 h2 => by omega⟩
      · rw [if_neg ht] at h
        rcases hstep : addE xp p with e | xp1
        · rw [hstep] at h
          simp at h
        · rw [hstep] at h
          have hx1 : iterAdd (x + 1) p = .ok xp1 := iterAdd_succ_of hx hstep
          obtain ⟨hk, hkt, hti, hmin⟩ := ih (x + 1) xp1 k hx1 h
          refine ⟨by omega, hkt, hti, fun j u h1 h2 hj => ?_⟩
          rcases Nat.lt_or_ge j (x + 1) with hlt | hge
          · have : j = x := by omega
            subst this
            rw [hx] at hj
            injection hj with hj2
            subst hj2
            exact ⟨ht, hinf⟩
          · exact hmin j u hge h2 hj

/-- Completeness of the brute-force loop: if the `k`-th iterate is the
target and no earlier iterate (from the start index on) hits the target
or infinity, the loop finds exactly `k` within fuel `k − x + 1`. -/
theorem bruteAux_complete (p t : ECPoint) (k : Nat) (hkt : iterAdd k p = .ok t)
    (hmin : ∀ j u, 1 ≤ j → j < k → iterAdd j p = .ok u → u ≠ t)
    (hninf : ∀ j u, 1 ≤ j → j ≤ k → iterAdd j p = .ok u → u ≠ mkInfinity p.a p.b) :
    ∀ (d x : Nat) (xp : ECPoint), x + d = k → 1 ≤ x → iterAdd x p = .ok xp →
    bruteAux (d + 1) p t xp x = some (.ok (some k)) := by
  intro d
  induction d with
  | zero =>
    intro x xp hx h1 hxp
    have hxk : x = k := by omega
    subst hxk
    rw [hxp] at hkt
    injection hkt with h2
    unfold bruteAux
    rw [if_neg (hninf x xp h1 (le_refl _) hxp), if_pos h2]
  | succ d ih =>
    intro x xp hx h1 hxp
    unfold bruteAux
    rw [if_neg (hninf x xp h1 (by omega) hxp),
      if_neg (hmin x xp h1 (by omega) hxp)]
    obtain ⟨u, hu⟩ := iterAdd_ok_of_le hkt (x + 1) (by omega)
    obtain ⟨w, hw, hwu⟩ := iterAdd_succ_ok hu
    rw [hxp] at hw
    injection hw with hw2
    subst hw2
    rw [hwu]
    exact ih (x + 1) u (by omega) (by omega) hu

/-- The brute-force loop returns "not found" as soon as the iterates
reach infinity without having hit the target. -/
theorem bruteAux_none (p t : ECPoint) (o : Nat)
    (ho : iterAdd o p = .ok (mkInfinity p.a p.b))
    (hmiss : ∀ j u, 1 ≤ j → j < o → iterAdd j p = .ok u →
      u ≠ t ∧ u ≠ mkInfinity p.a p.b) :
    ∀ (d x : Nat) (xp : ECPoint), x + d = o → 1 ≤ x → iterAdd x p = .ok xp →
    bruteAux (d + 1) p t xp x = some (.ok none) := by
  intro d
  induction d with
  | zero =>
    intro x xp hx h1 hxp
    have hxo : x = o := by omega
    subst hxo
    rw [hxp] at ho
    injection ho with h2
    unfold bruteAux
    rw [if_pos h2]
  | succ d ih =>
    intro x xp hx h1 hxp
    obtain ⟨hnt, hninf⟩ := hmiss x xp h1 (by omega) hxp
    unfold bruteAux
    rw [if_neg hninf, if_neg hnt]
    obtain ⟨u, hu⟩ := iterAdd_ok_of_le ho (x + 1) (by omega)
    obtain ⟨w, hw, hwu⟩ := iterAdd_succ_ok hu
    rw [hxp] at hw
    injection hw with hw2
    subst hw2
    rw [hwu]
    exact ih (x + 1) u (by omega) (by omega) hu

end ECPoint

/-- C2 (amended): for every generator `P` and target `T` on the same
curve, brute force returns the minimal positive `k` whose `k`-fold sum of
`P` equals `T` whenever such a `k` exists strictly before the iterates
first reach infinity (i.e. `k < order(P)`; a target equal to the identity
is never found because the loop stops on infinity before comparing), and
returns "not found" when no iterate below the first infinity equals `T`;
on curve `a=905, b=100 (mod 1021)` with `P=(1006,416)`, `T=(612,827)` it
returns `k = 687`, and `687·P == T`. -/
theorem brute_force_minimal_characterization :
    (∀ (fuel : Nat) (p t : ECPoint) (k : Nat),
      ECPoint.solveDlpBruteForce fuel p t = some (.ok (some k)) →
      1 ≤ k ∧ ECPoint.iterAdd k p = .ok t ∧ t ≠ ECPoint.mkInfinity p.a p.b ∧
      (∀ j u, 1 ≤ j → j < k → ECPoint.iterAdd j p = .ok u →
        u ≠ t ∧ u ≠ ECPoint.mkInfinity p.a p.b)) ∧
    (∀ (p t : ECPoint) (k : Nat), 1 ≤ k → ECPoint.iterAdd k p = .ok t →
      (∀ j u, 1 ≤ j → j < k → ECPoint.iterAdd j p = .ok u → u ≠ t) →
      (∀ j u, 1 ≤ j → j ≤ k → ECPoint.iterAdd j p = .ok u →
        u ≠ ECPoint.mkInfinity p.a p.b) →
      ECPoint.solveDlpBruteForce k p t = some (.ok (some k))) ∧
    (∀ (p t : ECPoint) (o : Nat), 1 ≤ o →
      ECPoint.iterAdd o p = .ok (ECPoint.mkInfinity p.a p.b) →
      (∀ j u, 1 ≤ j → j < o → ECPoint.iterAdd j p = .ok u →
        u ≠ t ∧ u ≠ ECPoint.mkInfinity p.a p.b) →
      ECPoint.solveDlpBruteForce o p t = some (.ok none)) ∧
    ECPoint.solveDlpBruteForce 1000 dlpP dlpT = some (.ok (some 687)) ∧
    ECPoint.mulE dlpP 687 = .ok dlpT := by
  refine ⟨fun fuel p t k h => ?_, fun p t k hk hkt hmin hninf => ?_,
    fun p t o ho1 ho hmiss => ?_, by decide, by decide⟩
  · obtain ⟨h1, h2, h3, h4⟩ :=
      ECPoint.bruteAux_sound p t fuel 1 p k (ECPoint.iterAdd_one p) h
    exact ⟨h1, h2, h3, h4⟩
  · have h := ECPoint.bruteAux_complete p t k hkt hmin hninf (k - 1) 1 p
      (by omega) (le_refl _) (ECPoint.iterAdd_one p)
    rw [show k - 1 + 1 = k by omega] at h
    exact h
  · have h := ECPoint.bruteAux_none p t o ho hmiss (o - 1) 1 p
      (by omega) (le_refl _) (ECPoint.iterAdd_one p)
    rw [show o - 1 + 1 = o by omega] at h
    exact h

/-- Witness for C2 (amended): on `y² = x³ + 1 (mod 5)` with
`P = (0, 1)`, the solver's answer for `T = 2·P = (0, 4)` satisfies the
characterization. -/
theorem brute_force_minimal_characterization_witness :
    1 ≤ 2 ∧
    ECPoint.iterAdd 2 ord3P =
      .ok ⟨Felt.new 0 5, Felt.new 4 5, Felt.new 0 5, Felt.new 1 5, false⟩ ∧
    (⟨Felt.new 0 5, Felt.new 4 5, Felt.new 0 5, Felt.new 1 5, false⟩ : ECPoint) ≠
      ECPoint.mkInfinity ord3P.a ord3P.b ∧
    (∀ j u, 1 ≤ j → j < 2 → ECPoint.iterAdd j ord3P = .ok u →
      u ≠ ⟨Felt.new 0 5, Felt.new 4 5, Felt.new 0 5, Felt.new 1 5, false⟩ ∧
      u ≠ ECPoint.mkInfinity ord3P.a ord3P.b) :=
  brute_force_minimal_characterization.1 10 ord3P
    ⟨Felt.new 0 5, Felt.new 4 5, Felt.new 0 5, Felt.new 1 5, false⟩ 2 (by decide)

/-- C2 counterexample: for `P = (0, 1)` on `y² = x³ + 1 (mod 5)` and
target `T = infinity`, the minimal positive `k` with `k·P == T` is
`k = 3 = order(P)` — inside the claimed search bound `k ≤ order(P)` — yet
brute force returns "not found". -/
theorem brute_force_misses_infinity_target :
    ECPoint.solveDlpBruteForce 100 ord3P (ECPoint.mkInfinity ord3P.a ord3P.b) =
      some (.ok none) ∧
    ECPoint.orderE 100 ord3P = some (.ok 3) ∧
    ECPoint.iterAdd 3 ord3P = .ok (ECPoint.mkInfinity ord3P.a ord3P.b) ∧
    ECPoint.iterAdd 1 ord3P ≠ .ok (ECPoint.mkInfinity ord3P.a ord3P.b) ∧
    ECPoint.iterAdd 2 ord3P ≠ .ok (ECPoint.mkInfinity ord3P.a ord3P.b) := by decide

/-- C10 (amended): for a non-identity point `P` whose repeated multiples
reach infinity without a fatal panic, brute force with target
`infinity(a, b)` returns `None`: the loop terminates on reaching infinity
before that multiple is ever compared to the target. -/
theorem brute_force_none_on_infinity_target (p : ECPoint) (hpi : p.infinity = false)
    (o : Nat) (ho1 : 1 ≤ o)
    (ho : ECPoint.iterAdd o p = .ok (ECPoint.mkInfinity p.a p.b)) :
    ∃ fuel, ECPoint.solveDlpBruteForce fuel p (ECPoint.mkInfinity p.a p.b) =
      some (.ok none) := by
  have hpi2 : p.infinity = false := hpi
  clear hpi2
  have hex : ∃ n, 1 ≤ n ∧ ECPoint.iterAdd n p = .ok (ECPoint.mkInfinity p.a p.b) :=
    ⟨o, ho1, ho⟩
  classical
  set o0 := Nat.find hex with ho0
  obtain ⟨ho01, ho0inf⟩ := Nat.find_spec hex
  have hmiss : ∀ j u, 1 ≤ j → j < o0 → ECPoint.iterAdd j p = .ok u →
      u ≠ ECPoint.mkInfinity p.a p.b ∧ u ≠ ECPoint.mkInfinity p.a p.b := by
    intro j u h1 h2 hj
    have hnot := Nat.find_min hex h2
    simp only [not_and] at hnot
    have : ECPoint.iterAdd j p ≠ .ok (ECPoint.mkInfinity p.a p.b) := hnot h1
    constructor <;> (intro he; subst he; exact this hj)
  refine ⟨o0, ?_⟩
  have h := ECPoint.bruteAux_none p (ECPoint.mkInfinity p.a p.b) o0 ho0inf hmiss
    (o0 - 1) 1 p (by omega) (le_refl _) (ECPoint.iterAdd_one p)
  rw [show o0 - 1 + 1 = o0 by omega] at h
  exact h

/-- Witness for C10 (amended) at `P = (0, 1)` on `y² = x³ + 1 (mod 5)`
(order 3). -/
theorem brute_force_none_on_infinity_target_witness :
    ∃ fuel, ECPoint.solveDlpBruteForce fuel ord3P
      (ECPoint.mkInfinity ord3P.a ord3P.b) = some (.ok none) :=
  brute_force_none_on_infinity_target ord3P rfl 3 (by decide) (by decide)

/-- C10 counterexample: the valid non-identity point `(1, 3)` on
`y² = x³ + x + 7` over the composite modulus 15 makes
`solve_dlp_brute_force(P, infinity)` abort with the not-invertible panic
of the very first doubling (`2·y = 6` is not invertible mod 15) instead
of returning `None`. -/
theorem brute_force_infinity_target_panics :
    ECPoint.newE (Felt.new 1 15) (Felt.new 3 15) (Felt.new 1 15) (Felt.new 7 15) =
      .ok (.ok comp15P) ∧
    comp15P.infinity = false ∧
    ECPoint.solveDlpBruteForce 100 comp15P
      (ECPoint.mkInfinity comp15P.a comp15P.b) =
      some (.error (Panic.divNotInvertible 6 15)) := by decide

namespace ECPoint

theorem orderAux_ge (p : ECPoint) :
    ∀ (fuel : Nat) (gi : ECPoint) (c o : Nat),
    orderAux fuel p gi c = some (.ok o) → c ≤ o := by
  intro fuel
  induction fuel with
  | zero => intro gi c o h; simp [orderAux] at h
  | succ fuel ih =>
    intro gi c o h
    unfold orderAux at h
    by_cases hg : gi = mkInfinity p.a p.b
    · rw [if_pos hg] at h
      simp only [Option.some.injEq, Except.ok.injEq] at h
      omega
    · rw [if_neg hg] at h
      rcases hstep : addE gi p with e | gi2
      · rw [hstep] at h
        simp at h
      · rw [hstep] at h
        have := ih gi2 (c + 1) o h
        omega

theorem ceilSqrtAux_ge : ∀ (fuel m n : Nat), m ≤ ceilSqrtAux fuel m n := by
  intro fuel
  induction fuel with
  | zero => intro m n; exact le_refl _
  | succ fuel ih =>
    intro m n
    unfold ceilSqrtAux
    split
    · exact le_refl _
    · exact le_trans (by omega) (ih (m + 1) n)

theorem ceilSqrt_pos {n : Nat} (hn : 1 ≤ n) : 1 ≤ ceilSqrt n := by
  unfold ceilSqrt ceilSqrtAux
  have h0 : ¬ n ≤ 0 * 0 := by omega
  rcases n with - | n
  · omega
  · rw [if_neg h0]
    exact ceilSqrtAux_ge _ _ _

/-- Every entry of the baby-step table built by `babyAux` maps the
`i`-fold sum of `p` to `i`, with `i` in the covered range. -/
theorem babyAux_spec (p : ECPoint) :
    ∀ (left : Nat) (pi : ECPoint) (i : Nat) (table tout : List (ECPoint × Nat)),
    iterAdd i p = .ok pi → 1 ≤ i →
    (∀ pt j, (pt, j) ∈ table → 1 ≤ j ∧ j < i ∧ iterAdd j p = .ok pt) →
    babyAux p left pi i table = .ok tout →
    (∀ pt j, (pt, j) ∈ tout → 1 ≤ j ∧ j < i + left ∧ iterAdd j p = .ok pt) := by
  intro left
  induction left with
  | zero =>
    intro pi i table tout hpi hi htab h
    unfold babyAux at h
    injection h with h2
    subst h2
    intro pt j hj
    obtain ⟨a1, a2, a3⟩ := htab pt j hj
    exact ⟨a1, by omega, a3⟩
  | succ left ih =>
    intro pi i table tout hpi hi htab h
    unfold babyAux at h
    rcases hstep : addE pi p with e | pi2
    · rw [hstep] at h
      simp [bind, Except.bind] at h
    · rw [hstep] at h
      simp only [bind, Except.bind] at h
      have hnext : iterAdd (i + 1) p = .ok pi2 := iterAdd_succ_of hpi hstep
      have htab2 : ∀ pt j, (pt, j) ∈ (pi, i) :: table →
          1 ≤ j ∧ j < i + 1 ∧ iterAdd j p = .ok pt := by
        intro pt j hj
        rcases List.mem_cons.mp hj with heq | hmem
        · injection heq with e1 e2
          subst e1
          subst e2
          exact ⟨hi, by omega, hpi⟩
        · obtain ⟨a1, a2, a3⟩ := htab pt j hmem
          exact ⟨a1, by omega, a3⟩
      have := ih pi2 (i + 1) ((pi, i) :: table) tout hnext (by omega) htab2 h
      intro pt j hj
      obtain ⟨a1, a2, a3⟩ := this pt j hj
      exact ⟨a1, by omega, a3⟩

theorem lookupTable_mem {q : ECPoint} :
    ∀ (table : List (ECPoint × Nat)) (i : Nat),
    lookupTable q table = some i → (q, i) ∈ table := by
  intro table
  induction table with
  | nil => intro i h; simp [lookupTable] at h
  | cons hd tl ih =>
    intro i h
    rcases hd with ⟨pt, j⟩
    unfold lookupTable at h
    by_cases hq : pt = q
    · rw [if_pos hq] at h
      injection h with h2
      subst h2
      subst hq
      exact List.mem_cons_self _ _
    · rw [if_neg hq] at h
      exact List.mem_cons_of_mem _ (ih i h)

/-- On a hit, the giant-step loop returns `m·j + i` where the `i`-fold
sum of `p` equals `target + (−(j-fold sum of m·p))`. -/
theorem giantAux_spec (p t mp : ECPoint) (m : Nat) (table : List (ECPoint × Nat))
    (htab : ∀ pt j, (pt, j) ∈ table → 1 ≤ j ∧ j < m ∧ iterAdd j p = .ok pt) :
    ∀ (left : Nat) (jmp : ECPoint) (j k : Nat),
    j + left = m →
    iterFrom p.a p.b mp j = .ok jmp →
    giantAux p t mp m table left jmp j = .ok (some k) →
    ∃ jj i jmpv njmp q, jj < m ∧ 1 ≤ i ∧ i < m ∧ k = m * jj + i ∧
      iterFrom p.a p.b mp jj = .ok jmpv ∧ negE jmpv = .ok njmp ∧
      addE t njmp = .ok q ∧ iterAdd i p = .ok q := by
  intro left
  induction left with
  | zero => intro jmp j k hm hjmp h; simp [giantAux] at h
  | succ left ih =>
    intro jmp j k hm hjmp h
    unfold giantAux at h
    rcases hneg : negE jmp with e | njmp
    · rw [hneg] at h
      simp [bind, Except.bind] at h
    · rw [hneg] at h
      simp only [bind, Except.bind] at h
      rcases hq : addE t njmp with e | q
      · rw [hq] at h
        simp at h
      · rw [hq] at h
        simp only at h
        rcases hlook : lookupTable q table with - | i
        · rw [hlook] at h
          simp only at h
          rcases hstep : addE jmp mp with e | jmp2
          · rw [hstep] at h
            simp at h
          · rw [hstep] at h
            simp only [bind, Except.bind] at h
            have hjmp2 : iterFrom p.a p.b mp (j + 1) = .ok jmp2 := by
              unfold iterFrom
              rw [hjmp]
              simpa [bind, Except.bind] using hstep
            exact ih jmp2 (j + 1) k (by omega) hjmp2 h
        · rw [hlook] at h
          simp only [pure, Except.pure, Except.ok.injEq, Option.some.injEq] at h
          obtain ⟨h1, h2, h3⟩ := htab q i (lookupTable_mem table i hlook)
          exact ⟨j, i, jmp, njmp, q, by omega, h1, h2, h.symm, hjmp, hneg, hq, h3⟩

end ECPoint

/-- C1 (amended): whenever baby-step giant-step returns `k`, then
`k = m·j + i` with `1 ≤ i < m`, `0 ≤ j < m`, `m = ceil(sqrt(order(P)))`,
where the `i`-fold sum of `P` equals `T + (−(j-fold sum of m·P))` — the
meet-in-the-middle equation of the first hit in ascending-`j` order — so
`1 ≤ k ≤ m² − 1` (but not necessarily `k ≤ order(P)`); on curve
`a=905, b=100 (mod 1021)` with `P=(1006,416)` and `T=(612,827)` it
returns `k = 687`, which satisfies `687·P == T` and
`1 ≤ 687 ≤ order(P) = 966`. -/
theorem bsgs_first_hit_characterization :
    (∀ (fuel : Nat) (p t : ECPoint) (k : Nat),
      ECPoint.solveDlpBsgs fuel p t = some (.ok (some k)) →
      ∃ (ord m_ jj i : Nat) (mp jmpv njmp q : ECPoint),
        ECPoint.orderE fuel p = some (.ok ord) ∧ m_ = ECPoint.ceilSqrt ord ∧
        jj < m_ ∧ 1 ≤ i ∧ i < m_ ∧ k = m_ * jj + i ∧ 1 ≤ k ∧ k + 1 ≤ m_ * m_ ∧
        ECPoint.mulE p m_ = .ok mp ∧
        ECPoint.iterFrom p.a p.b mp jj = .ok jmpv ∧
        ECPoint.negE jmpv = .ok njmp ∧ ECPoint.addE t njmp = .ok q ∧
        ECPoint.iterAdd i p = .ok q) ∧
    ECPoint.solveDlpBsgs 2000 dlpP dlpT = some (.ok (some 687)) ∧
    ECPoint.mulE dlpP 687 = .ok dlpT ∧
    ECPoint.orderE 2000 dlpP = some (.ok 966) ∧ 1 ≤ 687 ∧ 687 ≤ 966 := by
  refine ⟨fun fuel p t k h => ?_, by decide, by decide, by decide, by omega, by omega⟩
  unfold ECPoint.solveDlpBsgs at h
  rcases hord : ECPoint.orderE fuel p with - | res
  · rw [hord] at h
    simp at h
  · rcases res with e | ord
    · rw [hord] at h
      simp at h
    · rw [hord] at h
      simp only [Option.some.injEq] at h
      have hord1 : 1 ≤ ord := ECPoint.orderAux_ge p fuel p 1 ord hord
      have hm1 : 1 ≤ ECPoint.ceilSqrt ord := ECPoint.ceilSqrt_pos hord1
      unfold ECPoint.bsgsCore at h
      simp only [bind, Except.bind] at h
      rcases htab : ECPoint.babyAux p (ECPoint.ceilSqrt ord - 1) p 1 [] with e | table
      · rw [htab] at h
        simp [bind, Except.bind] at h
      · rw [htab] at h
        simp only [bind, Except.bind] at h
        rcases hmp : ECPoint.mulE p (ECPoint.ceilSqrt ord) with e | mp
        · rw [hmp] at h
          simp at h
        · rw [hmp] at h
          simp only at h
          have htabspec : ∀ pt j, (pt, j) ∈ table →
              1 ≤ j ∧ j < ECPoint.ceilSqrt ord ∧ ECPoint.iterAdd j p = .ok pt := by
            intro pt j hj
            have := ECPoint.babyAux_spec p (ECPoint.ceilSqrt ord - 1) p 1 [] table
              (ECPoint.iterAdd_one p) (le_refl _) (by simp) htab pt j hj
            obtain ⟨a1, a2, a3⟩ := this
            exact ⟨a1, by omega, a3⟩
          obtain ⟨jj, i, jmpv, njmp, q, b1, b2, b3, b4, b5, b6, b7, b8⟩ :=
            ECPoint.giantAux_spec p t mp (ECPoint.ceilSqrt ord) table htabspec
              (ECPoint.ceilSqrt ord) (ECPoint.mkInfinity p.a p.b) 0 k
              (by omega) rfl h
          have hkub : k + 1 ≤ ECPoint.ceilSqrt ord * ECPoint.ceilSqrt ord := by
            have hmul := Nat.mul_le_mul_left (ECPoint.ceilSqrt ord)
              (show jj + 1 ≤ ECPoint.ceilSqrt ord by omega)
            have hsucc : ECPoint.ceilSqrt ord * (jj + 1) =
                ECPoint.ceilSqrt ord * jj + ECPoint.ceilSqrt ord := Nat.mul_succ _ _
            omega
          exact ⟨ord, ECPoint.ceilSqrt ord, jj, i, mp, jmpv, njmp, q, rfl, rfl,
            b1, b2, b3, b4, by omega, hkub, hmp, b5, b6, b7, b8⟩

/-- Witness for C1 (amended): the hit for `P = (6, 5)`, `T = 4·P` on
`y² = x³ + 6·x + 4 (mod 7)`. -/
theorem bsgs_first_hit_characterization_witness :
    ∃ (ord m_ jj i : Nat) (mp jmpv njmp q : ECPoint),
      ECPoint.orderE 100 ord10P = some (.ok ord) ∧ m_ = ECPoint.ceilSqrt ord ∧
      jj < m_ ∧ 1 ≤ i ∧ i < m_ ∧ 14 = m_ * jj + i ∧ 1 ≤ 14 ∧ 14 + 1 ≤ m_ * m_ ∧
      ECPoint.mulE ord10P m_ = .ok mp ∧
      ECPoint.iterFrom ord10P.a ord10P.b mp jj = .ok jmpv ∧
      ECPoint.negE jmpv = .ok njmp ∧ ECPoint.addE ord10T njmp = .ok q ∧
      ECPoint.iterAdd i ord10P = .ok q :=
  bsgs_first_hit_characterization.1 100 ord10P ord10T 14 (by decide)

/-- C1 counterexample: `P = (6, 5)` on `y² = x³ + 6·x + 4 (mod 7)` has
order 10 and `T = 4·P = (0, 2)`; baby-step giant-step returns `k = 14`
(the first hit is the wrap-around `14 ≡ 4 (mod 10)`, because `4` itself
is a multiple of `m = 4` and therefore not representable as `j·m + i`
with `1 ≤ i ≤ m−1`), and `14·P == T` — but `14 > order(P) = 10`,
refuting the claimed bound `1 ≤ k ≤ order(P)`. -/
theorem bsgs_returns_k_above_order :
    ECPoint.mulE ord10P 4 = .ok ord10T ∧
    ECPoint.orderE 100 ord10P = some (.ok 10) ∧
    ECPoint.solveDlpBsgs 100 ord10P ord10T = some (.ok (some 14)) ∧
    ECPoint.mulE ord10P 14 = .ok ord10T ∧
    ¬ 14 ≤ 10 := by decide

namespace ECPoint

/-- A successful cross-check run certifies that repeated addition and
double-and-add agree on every scalar it covered. -/
theorem crossCheck_spec (p : ECPoint) :
    ∀ (left k : Nat) (acc : ECPoint), 1 ≤ k → iterAdd (k - 1) p = .ok acc →
    crossCheck p left acc k = true →
    ∀ j, k ≤ j → j < k + left → iterAdd j p = mulE p j := by
  intro left
  induction left with
  | zero => intro k acc h1 hacc h j hj1 hj2; omega
  | succ left ih =>
    intro k acc h1 hacc h j hj1 hj2
    unfold crossCheck at h
    rcases hstep : addE acc p with e | acc2
    · rw [hstep] at h
      simp at h
    · rw [hstep] at h
      rcases hmul : mulE p k with e | pm
      · rw [hmul] at h
        simp at h
      · rw [hmul] at h
        simp only [Bool.and_eq_true, decide_eq_true_eq] at h
        obtain ⟨heq, hrest⟩ := h
        have hk : iterAdd k p = .ok acc2 := by
          have := iterAdd_succ_of hacc hstep
          rwa [show k - 1 + 1 = k by omega] at this
        rcases Nat.eq_or_lt_of_le hj1 with hj | hj
        · subst hj
          rw [hk, hmul, heq]
        · have hknext : iterAdd (k + 1 - 1) p = .ok acc2 := by
            rwa [show k + 1 - 1 = k by omega]
          exact ih (k + 1) acc2 (by omega) hknext hrest j (by omega) (by omega)

end ECPoint

/-- C7 (amended): on the spec's cross-check configuration — the point
`(18, 26)` on `y² = x³ + 3·x + 7 (mod 37)` — double-and-add scalar
multiplication agrees with iterative accumulation for every scalar
`k = 1 .. 999`; and scalar multiplication is commutative in notation,
`k·P == P·k`, for every point and every unsigned scalar. -/
theorem mul_matches_iteration_on_check_curve :
    (∀ k : Nat, 1 ≤ k → k ≤ 999 →
      ECPoint.iterAdd k checkP = ECPoint.mulE checkP k) ∧
    (∀ (k : Nat) (p : ECPoint), ECPoint.mulNatE k p = ECPoint.mulE p k) := by
  constructor
  · intro k h1 h2
    have hrun : ECPoint.crossCheck checkP 999
        (ECPoint.mkInfinity checkP.a checkP.b) 1 = true := by decide
    exact ECPoint.crossCheck_spec checkP 999 1
      (ECPoint.mkInfinity checkP.a checkP.b) (le_refl _)
      (ECPoint.iterAdd_zero checkP) hrun k h1 (by omega)
  · intro k p
    rfl

/-- Witness for C7 (amended) at `k = 10`. -/
theorem mul_matches_iteration_on_check_curve_witness :
    ECPoint.iterAdd 10 checkP = ECPoint.mulE checkP 10 :=
  mul_matches_iteration_on_check_curve.1 10 (by omega) (by omega)

/-- C7 counterexample: `(1, 3)` is a valid point of `y² = x³ + x + 7`
over the composite modulus 15, yet already for `k = 1` double-and-add
disagrees with iterative accumulation: the loop's unconditional final
`current += current` doubles `(1, 3)`, whose tangent denominator
`2·y = 6` is not invertible mod 15, so `P * 1` panics while one
iterated addition returns `P`. -/
theorem double_and_add_extra_doubling_panics :
    ECPoint.newE (Felt.new 1 15) (Felt.new 3 15) (Felt.new 1 15) (Felt.new 7 15) =
      .ok (.ok comp15P) ∧
    ECPoint.iterAdd 1 comp15P = .ok comp15P ∧
    ECPoint.mulE comp15P 1 = .error (Panic.divNotInvertible 6 15) ∧
    ECPoint.mulE comp15P 1 ≠ ECPoint.iterAdd 1 comp15P := by decide
